import Mathlib

/-!
Verification of the needle neural-network module library (`src/python/needle/nn.py`)
against its natural-language specification.

The development shallowly embeds the library's code in Lean:

* The module/parameter discovery mechanism (`_unpack_params`, `_child_modules`,
  `Module.parameters`, `Module._children`, `Module.eval`, `Module.train`)
  is embedded as mutual inductive types `NValue` / `NModule` mirroring the
  Python attribute graph (the graph is required to be acyclic by the spec,
  so a tree-shaped inductive faithfully represents reachable object layouts),
  together with mutual recursive functions following the Python code
  case-for-case.
* The layers (`BatchNorm1d`, `BatchNorm2d`, `SoftmaxLoss`, `LSTMCell`,
  `RNN`/`LSTM` constructors and forwards, `Conv` at shape level) are embedded
  over real-valued tensors represented as nested lists, with the external
  tensor engine's primitives (sum over an axis, reshape, broadcast, transpose
  of two axes, split, stack, matrix multiply, logsumexp, one-hot) modelled by
  their documented semantics, since the engine itself is an external
  collaborator of the library.
-/

/-! ## Module system: attribute values and modules

Mirrors the dynamic Python data model used by `_unpack_params` and
`_child_modules`: an attribute value is a `Parameter` (identified here by a
numeric id), a `Module` (training flag plus ordered `__dict__` of attributes),
a dict (insertion-ordered key/value list), a list/tuple, or anything else
(`other`: plain scalars, un-tagged tensors, strings, ...). -/

mutual

inductive NValue where
  | param : Nat → NValue
  | module : NModule → NValue
  | vdict : List (String × NValue) → NValue
  | vlist : List NValue → NValue
  | other : NValue

inductive NModule where
  | mk : Bool → List (String × NValue) → NModule

end

/-- The module's `training` flag. -/
def NModule.training : NModule → Bool
  | .mk b _ => b

/-- The module's ordered attribute dictionary (`self.__dict__`). -/
def NModule.attrs : NModule → List (String × NValue)
  | .mk _ es => es

/-! ### `_unpack_params` / `Module.parameters`

Case-for-case translation of `_unpack_params` from nn.py: a `Parameter`
contributes itself; a `Module` contributes its `parameters()`; a dict
contributes the concatenation over its values in insertion order; a
list/tuple the concatenation over its elements in order; anything else
nothing.  `Module.parameters()` is `_unpack_params(self.__dict__)`. -/

mutual

def unpackParams : NValue → List Nat
  | .param i => [i]
  | .module m => NModule.parameters m
  | .vdict es => unpackParamsPairs es
  | .vlist vs => unpackParamsList vs
  | .other => []

def unpackParamsPairs : List (String × NValue) → List Nat
  | [] => []
  | (_, v) :: rest => unpackParams v ++ unpackParamsPairs rest

def unpackParamsList : List NValue → List Nat
  | [] => []
  | v :: rest => unpackParams v ++ unpackParamsList rest

def NModule.parameters : NModule → List Nat
  | .mk _ es => unpackParamsPairs es

end

/-! ### `_child_modules` / `Module._children`

Case-for-case translation of `_child_modules` from nn.py: a `Module` value
contributes itself followed by `_child_modules(value.__dict__)`; dicts and
lists/tuples concatenate over their entries; anything else contributes
nothing.  `Module._children()` is `_child_modules(self.__dict__)`. -/

mutual

def childModulesVal : NValue → List NModule
  | .param _ => []
  | .module (.mk b es) => NModule.mk b es :: childModulesPairs es
  | .vdict es => childModulesPairs es
  | .vlist vs => childModulesList vs
  | .other => []

def childModulesPairs : List (String × NValue) → List NModule
  | [] => []
  | (_, v) :: rest => childModulesVal v ++ childModulesPairs rest

def childModulesList : List NValue → List NModule
  | [] => []
  | v :: rest => childModulesVal v ++ childModulesList rest

end

/-- `Module._children()`: `_child_modules(self.__dict__)`. -/
def NModule.childrenOf (m : NModule) : List NModule :=
  childModulesPairs m.attrs

/-! ### `Module.eval` / `Module.train`

The Python methods set `self.training` and then set the same flag on every
module object in `self._children()`.  Since the attribute graph is a tree and
`_children()` enumerates the reachable module objects (see
`mem_childModules_of_reaches` below), the net effect on the object graph is to set
the flag of every reachable module, which the pure functions below compute. -/

mutual

def setFlagVal (b : Bool) : NValue → NValue
  | .param i => .param i
  | .module m => .module (setFlagMod b m)
  | .vdict es => .vdict (setFlagPairs b es)
  | .vlist vs => .vlist (setFlagList b vs)
  | .other => .other

def setFlagPairs (b : Bool) : List (String × NValue) → List (String × NValue)
  | [] => []
  | (k, v) :: rest => (k, setFlagVal b v) :: setFlagPairs b rest

def setFlagList (b : Bool) : List NValue → List NValue
  | [] => []
  | v :: rest => setFlagVal b v :: setFlagList b rest

def setFlagMod (b : Bool) : NModule → NModule
  | .mk _ es => .mk b (setFlagPairs b es)

end

/-- `Module.eval()`: set the training flag of the module and of every reachable
descendant module to `false`. -/
def NModule.evalMode (m : NModule) : NModule := setFlagMod false m

/-- `Module.train()`: set the training flag of the module and of every reachable
descendant module to `true`. -/
def NModule.trainMode (m : NModule) : NModule := setFlagMod true m

/-- `Reaches v m` holds when the module object `m` is reachable from the
attribute value `v` (a module reaches itself, and reachability descends
through module attribute dictionaries, dict values and list elements). -/
inductive Reaches : NValue → NModule → Prop where
  | here (m : NModule) : Reaches (.module m) m
  | intoModule {m : NModule} {m' : NModule} :
      Reaches (.vdict m.attrs) m' → Reaches (.module m) m'
  | intoDict {es : List (String × NValue)} {p : String × NValue} {m' : NModule} :
      p ∈ es → Reaches p.2 m' → Reaches (.vdict es) m'
  | intoList {vs : List NValue} {v : NValue} {m' : NModule} :
      v ∈ vs → Reaches v m' → Reaches (.vlist vs) m'

/-! ### Specification-side count of reachable Parameter occurrences

Counts with multiplicity across aliasing paths, following the words of the
spec ("sum over all declared Parameter attributes reachable through
Modules/containers, counted with multiplicity"). -/

mutual

def countParamsVal : NValue → Nat
  | .param _ => 1
  | .module (.mk _ es) => countParamsPairs es
  | .vdict es => countParamsPairs es
  | .vlist vs => countParamsList vs
  | .other => 0

def countParamsPairs : List (String × NValue) → Nat
  | [] => 0
  | (_, v) :: rest => countParamsVal v + countParamsPairs rest

def countParamsList : List NValue → Nat
  | [] => 0
  | v :: rest => countParamsVal v + countParamsList rest

end

/-! ### Lemmas about the module system -/

/-! `allFlagsVal b v`: every module reachable inside `v` has training flag `b`. -/

mutual

def allFlagsVal (b : Bool) : NValue → Prop
  | .param _ => True
  | .module (.mk b0 es) => b0 = b ∧ allFlagsPairs b es
  | .vdict es => allFlagsPairs b es
  | .vlist vs => allFlagsList b vs
  | .other => True

def allFlagsPairs (b : Bool) : List (String × NValue) → Prop
  | [] => True
  | (_, v) :: rest => allFlagsVal b v ∧ allFlagsPairs b rest

def allFlagsList (b : Bool) : List NValue → Prop
  | [] => True
  | v :: rest => allFlagsVal b v ∧ allFlagsList b rest

end

mutual

theorem allFlags_setFlagVal (b : Bool) : (v : NValue) → allFlagsVal b (setFlagVal b v)
  | .param _ => trivial
  | .module (.mk b0 es) => ⟨rfl, allFlags_setFlagPairs b es⟩
  | .vdict es => allFlags_setFlagPairs b es
  | .vlist vs => allFlags_setFlagList b vs
  | .other => trivial

theorem allFlags_setFlagPairs (b : Bool) :
    (es : List (String × NValue)) → allFlagsPairs b (setFlagPairs b es)
  | [] => trivial
  | (_, v) :: rest => ⟨allFlags_setFlagVal b v, allFlags_setFlagPairs b rest⟩

theorem allFlags_setFlagList (b : Bool) :
    (vs : List NValue) → allFlagsList b (setFlagList b vs)
  | [] => trivial
  | v :: rest => ⟨allFlags_setFlagVal b v, allFlags_setFlagList b rest⟩

end

theorem allFlagsPairs_of_mem {b : Bool} {es : List (String × NValue)}
    {p : String × NValue} (hp : p ∈ es) (h : allFlagsPairs b es) :
    allFlagsVal b p.2 := by
  induction es with
  | nil => cases hp
  | cons q rest ih =>
      obtain ⟨k, v⟩ := q
      rcases List.mem_cons.mp hp with h1 | h1
      · subst h1; exact h.1
      · exact ih h1 h.2

theorem allFlagsList_of_mem {b : Bool} {vs : List NValue}
    {v : NValue} (hv : v ∈ vs) (h : allFlagsList b vs) :
    allFlagsVal b v := by
  induction vs with
  | nil => cases hv
  | cons w rest ih =>
      rcases List.mem_cons.mp hv with h1 | h1
      · subst h1; exact h.1
      · exact ih h1 h.2

theorem training_of_reaches {b : Bool} {w : NValue} {m' : NModule}
    (h : Reaches w m') (hall : allFlagsVal b w) : m'.training = b := by
  induction h with
  | here m =>
      cases m with
      | mk b0 es => simpa [NModule.training] using hall.1
  | intoModule h ih =>
      rename_i m m'
      cases m with
      | mk b0 es => exact ih hall.2
  | intoDict hp hr ih => exact ih (allFlagsPairs_of_mem hp hall)
  | intoList hv hr ih => exact ih (allFlagsList_of_mem hv hall)

mutual

theorem setFlagVal_idem (b b' : Bool) :
    (v : NValue) → setFlagVal b (setFlagVal b' v) = setFlagVal b v
  | .param _ => rfl
  | .module (.mk b0 es) => by
      simp [setFlagVal, setFlagMod, setFlagPairs_idem b b' es]
  | .vdict es => by simp [setFlagVal, setFlagPairs_idem b b' es]
  | .vlist vs => by simp [setFlagVal, setFlagList_idem b b' vs]
  | .other => rfl

theorem setFlagPairs_idem (b b' : Bool) :
    (es : List (String × NValue)) → setFlagPairs b (setFlagPairs b' es) = setFlagPairs b es
  | [] => rfl
  | (k, v) :: rest => by
      simp [setFlagPairs, setFlagVal_idem b b' v, setFlagPairs_idem b b' rest]

theorem setFlagList_idem (b b' : Bool) :
    (vs : List NValue) → setFlagList b (setFlagList b' vs) = setFlagList b vs
  | [] => rfl
  | v :: rest => by
      simp [setFlagList, setFlagVal_idem b b' v, setFlagList_idem b b' rest]

end

theorem setFlagMod_idem (b b' : Bool) (m : NModule) :
    setFlagMod b (setFlagMod b' m) = setFlagMod b m := by
  cases m with
  | mk b0 es => simp [setFlagMod, setFlagPairs_idem b b' es]

theorem childModulesPairs_sub {es : List (String × NValue)}
    {p : String × NValue} (hp : p ∈ es) :
    childModulesVal p.2 ⊆ childModulesPairs es := by
  induction es with
  | nil => cases hp
  | cons q rest ih =>
      obtain ⟨k, v⟩ := q
      rcases List.mem_cons.mp hp with h1 | h1
      · subst h1
        intro x hx
        simp [childModulesPairs]
        exact Or.inl hx
      · intro x hx
        simp [childModulesPairs]
        exact Or.inr (ih h1 hx)

theorem childModulesList_sub {vs : List NValue}
    {v : NValue} (hv : v ∈ vs) :
    childModulesVal v ⊆ childModulesList vs := by
  induction vs with
  | nil => cases hv
  | cons w rest ih =>
      rcases List.mem_cons.mp hv with h1 | h1
      · subst h1
        intro x hx
        simp [childModulesList]
        exact Or.inl hx
      · intro x hx
        simp [childModulesList]
        exact Or.inr (ih h1 hx)

theorem mem_childModules_of_reaches {w : NValue} {m' : NModule}
    (h : Reaches w m') : m' ∈ childModulesVal w := by
  induction h with
  | here m =>
      cases m with
      | mk b es => exact List.mem_cons_self _ _
  | intoModule h ih =>
      rename_i m m'
      cases m with
      | mk b es => exact List.mem_cons_of_mem _ ih
  | intoDict hp hr ih => exact childModulesPairs_sub hp ih
  | intoList hv hr ih => exact childModulesList_sub hv ih

mutual

theorem unpackParams_length : (v : NValue) → (unpackParams v).length = countParamsVal v
  | .param _ => rfl
  | .module (.mk b es) => unpackParamsPairs_length es
  | .vdict es => unpackParamsPairs_length es
  | .vlist vs => unpackParamsList_length vs
  | .other => rfl

theorem unpackParamsPairs_length :
    (es : List (String × NValue)) → (unpackParamsPairs es).length = countParamsPairs es
  | [] => rfl
  | (k, v) :: rest => by
      simp [unpackParamsPairs, countParamsPairs, unpackParams_length v,
        unpackParamsPairs_length rest]

theorem unpackParamsList_length :
    (vs : List NValue) → (unpackParamsList vs).length = countParamsList vs
  | [] => rfl
  | v :: rest => by
      simp [unpackParamsList, countParamsList, unpackParams_length v,
        unpackParamsList_length rest]

end

/-! ### Claim theorems for the module system -/

/-- C3: for every module tree and every assignment of initial per-node training
flags, `eval()` sets the training flag of the root and of every reachable
descendant module to `false`, `train()` sets all of them to `true`, and both
effects are idempotent. -/
theorem eval_train_set_all_flags (m : NModule) :
    (∀ m', Reaches (.module m.evalMode) m' → m'.training = false) ∧
    (∀ m', Reaches (.module m.trainMode) m' → m'.training = true) ∧
    m.evalMode.evalMode = m.evalMode ∧
    m.trainMode.trainMode = m.trainMode := by
  refine ⟨?_, ?_, ?_, ?_⟩
  · intro m' h
    exact training_of_reaches h (allFlags_setFlagVal false (.module m))
  · intro m' h
    exact training_of_reaches h (allFlags_setFlagVal true (.module m))
  · exact setFlagMod_idem false false m
  · exact setFlagMod_idem true true m

/-- C3 witness: concrete module tree with mixed initial flags. -/
theorem eval_train_set_all_flags_witness :
    (NModule.evalMode (NModule.mk true [("sub", .module (.mk true []))])).training = false ∧
    NModule.evalMode (NModule.evalMode (NModule.mk true [("sub", .module (.mk true []))])) =
      NModule.evalMode (NModule.mk true [("sub", .module (.mk true []))]) :=
  ⟨(eval_train_set_all_flags (NModule.mk true [("sub", .module (.mk true []))])).1 _
      (Reaches.here _),
   (eval_train_set_all_flags (NModule.mk true [("sub", .module (.mk true []))])).2.2.1⟩

/-- C4: `parameters()` returns the flattened list of reachable Parameters
without de-duplication, so its length equals the number of reachable
Parameter occurrences counted with multiplicity. -/
theorem parameters_length_eq_countParams (m : NModule) :
    (NModule.parameters m).length = countParamsVal (.module m) := by
  cases m with
  | mk b es => exact unpackParamsPairs_length es

/-- C5 counterexample: for the module with no attributes, `_children()` returns
the empty list, so it does not include the module itself as its first entry. -/
theorem children_no_self_counterexample :
    (NModule.childrenOf (NModule.mk true [])).head? ≠ some (NModule.mk true []) := by
  simp [NModule.childrenOf, NModule.attrs, childModulesPairs]

/-- C5 (amended): `m._children()` returns every nested module reachable from
`m`'s attributes, but does not include `m` itself; it is `_child_modules`
applied to the module value itself that lists `m` as the first entry, followed
by `m._children()`. -/
theorem children_complete_and_headed (m : NModule) :
    childModulesVal (.module m) = m :: m.childrenOf ∧
    (∀ m', Reaches (.vdict m.attrs) m' → m' ∈ m.childrenOf) := by
  constructor
  · cases m with
    | mk b es => rfl
  · intro m' h
    exact mem_childModules_of_reaches h

/-- C5 witness: concrete tree with one nested module. -/
theorem children_complete_and_headed_witness :
    (NModule.mk true []) ∈
      (NModule.mk true [("sub", .module (.mk true []))]).childrenOf :=
  (children_complete_and_headed (NModule.mk true [("sub", .module (.mk true []))])).2
    (NModule.mk true [])
    (Reaches.intoDict (List.mem_singleton.mpr rfl) (Reaches.here _))

/-! ## Real-valued tensors as nested lists

The external tensor engine is modelled over `ℝ`; a 2-D tensor is a list of
rows.  Engine primitives (elementwise arithmetic, sum over axis 0, reshape of
a `(d,)` vector to `(1, d)` followed by broadcast to `(B, d)`, scalar
multiplication) are modelled by their documented semantics (spec §6), since
the engine is an external collaborator of the library under verification. -/

abbrev Vec := List ℝ
abbrev Mat := List (List ℝ)

noncomputable section

/-- The column count `shape[1]` of a 2-D tensor. -/
def colsOf (m : Mat) : Nat := (m.headD []).length

/-- `X.sum((0,))` on a `(B, d)` tensor: per-column sums. -/
def sumCols (A : Mat) : Vec :=
  (List.range (colsOf A)).map (fun c => (A.map (fun r => r.getD c 0)).sum)

/-- Elementwise combination of two same-shape 2-D tensors. -/
def matZip (f : ℝ → ℝ → ℝ) (A B : Mat) : Mat :=
  List.zipWith (List.zipWith f) A B

/-- Elementwise map over a 2-D tensor. -/
def matMap (f : ℝ → ℝ) (A : Mat) : Mat := A.map (List.map f)

/-- `v.reshape((1, d)).broadcast_to((B, d))`. -/
def rowBroadcast (v : Vec) (B : Nat) : Mat := List.replicate B v

/-- `X` is a well-shaped `(B, d)` tensor. -/
def isMat (X : Mat) (B d : Nat) : Prop :=
  X.length = B ∧ ∀ r ∈ X, r.length = d

/-- A 1-D tensor together with its gradient-tracking flag (`requires_grad` /
participation in the autograd tape).  `.data` (detach) clears the flag;
arithmetic propagates it. -/
structure TVec where
  val : Vec
  tracked : Bool

/-- A 2-D tensor together with its gradient-tracking flag. -/
structure TMat where
  val : Mat
  tracked : Bool

/-- Tensor addition of 1-D tensors. -/
def TVec.add (a b : TVec) : TVec := ⟨List.zipWith (· + ·) a.val b.val, a.tracked || b.tracked⟩

/-- Scalar times 1-D tensor. -/
def TVec.scale (c : ℝ) (a : TVec) : TVec := ⟨a.val.map (fun x => c * x), a.tracked⟩

/-- Division of a 1-D tensor by the scalar `X.shape[0]`. -/
def TVec.divNat (a : TVec) (n : Nat) : TVec := ⟨a.val.map (fun x => x / (n : ℝ)), a.tracked⟩

/-- `.data`: the same values, detached from gradient tracking. -/
def TVec.detach (a : TVec) : TVec := ⟨a.val, false⟩

/-- `v.reshape((1, d)).broadcast_to((B, d))` on a tracked 1-D tensor. -/
def TVec.broadcastRow (a : TVec) (B : Nat) : TMat := ⟨rowBroadcast a.val B, a.tracked⟩

/-- `X.sum((0,))` on a tracked 2-D tensor. -/
def TMat.sumAxis0 (A : TMat) : TVec := ⟨sumCols A.val, A.tracked⟩

/-- Elementwise combination of two tracked 2-D tensors. -/
def TMat.zip (f : ℝ → ℝ → ℝ) (A B : TMat) : TMat :=
  ⟨matZip f A.val B.val, A.tracked || B.tracked⟩

/-- Elementwise subtraction. -/
def TMat.sub (A B : TMat) : TMat := TMat.zip (· - ·) A B

/-- Elementwise multiplication. -/
def TMat.mulE (A B : TMat) : TMat := TMat.zip (· * ·) A B

/-- Elementwise division. -/
def TMat.divE (A B : TMat) : TMat := TMat.zip (· / ·) A B

/-- Elementwise addition. -/
def TMat.add (A B : TMat) : TMat := TMat.zip (· + ·) A B

/-- Elementwise map. -/
def TMat.map (f : ℝ → ℝ) (A : TMat) : TMat := ⟨matMap f A.val, A.tracked⟩

/-- Tensor plus scalar (`var + self.eps`). -/
def TMat.addScalar (A : TMat) (c : ℝ) : TMat := TMat.map (fun x => x + c) A

/-- Elementwise `** 0.5`, modelled as the real square root. -/
def TMat.powHalf (A : TMat) : TMat := TMat.map Real.sqrt A

/-! ## BatchNorm1d (`nn.py` lines 170-229)

State of a `BatchNorm1d` layer: `dim`, `eps`, `momentum`, learned per-channel
`weight`/`bias` Parameters, the two non-trainable running statistics, and the
`training` flag inherited from `Module`. -/

structure BN1d where
  dim : Nat
  eps : ℝ
  momentum : ℝ
  weight : TVec
  bias : TVec
  running_mean : TVec
  running_var : TVec
  training : Bool

/-- The training branch of `BatchNorm1d.forward`: batch mean over axis 0,
exponential-smoothing update of `running_mean` from the detached (`.data`)
mean, broadcast of the mean, biased batch variance of `(X - mean) ** 2`
over axis 0 divided by the batch size, update of `running_var` from the
detached variance, broadcast of the variance.  Returns the broadcast mean,
the broadcast variance and the layer state with rebound running statistics. -/
def bn1dTrainStep (st : BN1d) (X : TMat) : TMat × TMat × BN1d :=
  let B := X.val.length
  let mean := (TMat.sumAxis0 X).divNat B
  let rm := TVec.add (TVec.scale (1 - st.momentum) st.running_mean)
    (TVec.scale st.momentum mean.detach)
  let meanM := TVec.broadcastRow mean B
  let diff := TMat.sub X meanM
  let var := (TMat.sumAxis0 (TMat.mulE diff diff)).divNat B
  let rv := TVec.add (TVec.scale (1 - st.momentum) st.running_var)
    (TVec.scale st.momentum var.detach)
  (meanM, TVec.broadcastRow var B, { st with running_mean := rm, running_var := rv })

/-- The evaluation branch of `BatchNorm1d.forward`: broadcast the stored
running statistics; the layer state is untouched. -/
def bn1dEvalStep (st : BN1d) (X : TMat) : TMat × TMat × BN1d :=
  (TVec.broadcastRow st.running_mean X.val.length,
   TVec.broadcastRow st.running_var X.val.length, st)

/-- The shared epilogue of `BatchNorm1d.forward`:
`(X - mean) / (var + eps) ** 0.5` followed by the affine transform with the
broadcast per-channel `weight` and `bias`. -/
def bn1dEpilogue (st : BN1d) (X meanM varM : TMat) : TMat :=
  let B := X.val.length
  let normalized := TMat.divE (TMat.sub X meanM) (TMat.powHalf (TMat.addScalar varM st.eps))
  TMat.add (TMat.mulE (TVec.broadcastRow st.weight B) normalized) (TVec.broadcastRow st.bias B)

/-- `BatchNorm1d.forward`, translated statement-for-statement from nn.py.
The `assert self.dim == X.shape[1]` is modelled by returning `none` when it
fails; the result pairs the output tensor with the updated layer state
(running statistics are rebound attributes). -/
def bn1dForward (st : BN1d) (X : TMat) : Option (TMat × BN1d) :=
  if st.dim = colsOf X.val then
    let step := if st.training then bn1dTrainStep st X else bn1dEvalStep st X
    some (bn1dEpilogue st X step.1 step.2.1, step.2.2)
  else
    none

/-- The per-channel batch mean of a `(B, d)` tensor (specification formula). -/
def batchMean (X : Mat) (c : Nat) : ℝ :=
  (∑ i in Finset.range X.length, (X.getD i []).getD c 0) / (X.length : ℝ)

/-- The per-channel biased batch variance (dividing by the batch size, not
batch size minus one) of a `(B, d)` tensor (specification formula). -/
def batchVar (X : Mat) (c : Nat) : ℝ :=
  (∑ i in Finset.range X.length, ((X.getD i []).getD c 0 - batchMean X c) ^ 2) / (X.length : ℝ)

/-! ### Indexing lemmas for the list-tensor model -/

theorem getD_map_of_lt {α β : Type} (f : α → β) (l : List α) (i : Nat) (da : α) (db : β)
    (h : i < l.length) : (l.map f).getD i db = f (l.getD i da) := by
  rw [List.getD_eq_getElem _ _ (by simpa using h), List.getD_eq_getElem _ _ h,
    List.getElem_map]

theorem getD_zip_of_lt {α β γ : Type} (f : α → β → γ) (a : List α) (b : List β) (i : Nat)
    (da : α) (db : β) (dc : γ) (h1 : i < a.length) (h2 : i < b.length) :
    (List.zipWith f a b).getD i dc = f (a.getD i da) (b.getD i db) := by
  rw [List.getD_eq_getElem _ _ (by rw [List.length_zipWith]; omega),
    List.getD_eq_getElem _ _ h1, List.getD_eq_getElem _ _ h2, List.getElem_zipWith]

theorem getD_replicate_of_lt {α : Type} (n i : Nat) (a d : α) (h : i < n) :
    (List.replicate n a).getD i d = a := by
  rw [List.getD_eq_getElem _ _ (by simpa using h), List.getElem_replicate]

theorem getD_map_range {β : Type} (g : Nat → β) (d : β) {n i : Nat} (h : i < n) :
    ((List.range n).map g).getD i d = g i := by
  rw [List.getD_eq_getElem _ _ (by simpa using h), List.getElem_map, List.getElem_range]

theorem sum_map_getD {α : Type} (l : List α) (f : α → ℝ) (d : α) :
    (l.map f).sum = ∑ i in Finset.range l.length, f (l.getD i d) := by
  induction l with
  | nil => simp
  | cons a t ih =>
      rw [List.map_cons, List.sum_cons, ih, List.length_cons, Finset.sum_range_succ']
      simp [List.getD_cons_succ, List.getD_cons_zero, add_comm]

theorem isMat_row_length {X : Mat} {B d : Nat} (h : isMat X B d) {i : Nat} (hi : i < B) :
    (X.getD i []).length = d := by
  have hlen : i < X.length := by rw [h.1]; exact hi
  rw [List.getD_eq_getElem _ _ hlen]
  exact h.2 _ (List.getElem_mem hlen)

theorem colsOf_eq {X : Mat} {B d : Nat} (h : isMat X B d) (hB : 0 < B) : colsOf X = d := by
  cases X with
  | nil =>
      exfalso
      have := h.1
      simp at this
      omega
  | cons r t => exact h.2 r (by simp)

theorem isMat_matZip (f : ℝ → ℝ → ℝ) {X Y : Mat} {B d : Nat}
    (hX : isMat X B d) (hY : isMat Y B d) : isMat (matZip f X Y) B d := by
  refine ⟨by simp [matZip, hX.1, hY.1], ?_⟩
  intro r hr
  obtain ⟨i, hi, rfl⟩ := List.mem_iff_getElem.mp hr
  simp only [matZip] at hi ⊢
  rw [List.getElem_zipWith, List.length_zipWith]
  have hiX : i < X.length := by simp [List.length_zipWith] at hi; omega
  have hiY : i < Y.length := by simp [List.length_zipWith] at hi; omega
  rw [hX.2 _ (List.getElem_mem hiX), hY.2 _ (List.getElem_mem hiY), min_self]

theorem isMat_matMap (f : ℝ → ℝ) {X : Mat} {B d : Nat} (hX : isMat X B d) :
    isMat (matMap f X) B d := by
  refine ⟨by simp [matMap, hX.1], ?_⟩
  intro r hr
  simp only [matMap, List.mem_map] at hr
  obtain ⟨s, hs, rfl⟩ := hr
  simp [hX.2 s hs]

theorem isMat_rowBroadcast {v : Vec} {B d : Nat} (hv : v.length = d) :
    isMat (rowBroadcast v B) B d := by
  refine ⟨by simp [rowBroadcast], ?_⟩
  intro r hr
  rw [List.eq_of_mem_replicate hr]
  exact hv

theorem rowBroadcast_getD {v : Vec} {B i : Nat} (hi : i < B) :
    (rowBroadcast v B).getD i [] = v :=
  getD_replicate_of_lt B i v [] hi

theorem matZip_getD (f : ℝ → ℝ → ℝ) {A C : Mat} {B d : Nat}
    (hA : isMat A B d) (hC : isMat C B d) {i c : Nat} (hi : i < B) (hc : c < d) :
    ((matZip f A C).getD i []).getD c 0 = f ((A.getD i []).getD c 0) ((C.getD i []).getD c 0) := by
  rw [matZip,
    getD_zip_of_lt (List.zipWith f) A C i [] [] [] (by rw [hA.1]; exact hi)
      (by rw [hC.1]; exact hi),
    getD_zip_of_lt f _ _ c 0 0 0 (by rw [isMat_row_length hA hi]; exact hc)
      (by rw [isMat_row_length hC hi]; exact hc)]

theorem matMap_getD (f : ℝ → ℝ) {A : Mat} {B d : Nat}
    (hA : isMat A B d) {i c : Nat} (hi : i < B) (hc : c < d) :
    ((matMap f A).getD i []).getD c 0 = f ((A.getD i []).getD c 0) := by
  rw [matMap, getD_map_of_lt (List.map f) A i [] [] (by rw [hA.1]; exact hi),
    getD_map_of_lt f _ c 0 0 (by rw [isMat_row_length hA hi]; exact hc)]

theorem sumCols_length (X : Mat) : (sumCols X).length = colsOf X := by
  simp [sumCols]

theorem sumCols_getD {X : Mat} {B d : Nat} (hX : isMat X B d) (hB : 0 < B)
    {c : Nat} (hc : c < d) :
    (sumCols X).getD c 0 = ∑ i in Finset.range B, (X.getD i []).getD c 0 := by
  have hcols : colsOf X = d := colsOf_eq hX hB
  simp only [sumCols, hcols]
  rw [getD_map_range _ 0 hc, sum_map_getD X _ ([] : List ℝ), hX.1]

/-! ### Pointwise characterization of the BatchNorm1d computation -/

/-- The batch-mean tensor computed by the training branch:
`X.sum((0,)) / X.shape[0]`. -/
def bnBatchMeanT (X : TMat) : TVec := (TMat.sumAxis0 X).divNat X.val.length

/-- The biased batch-variance tensor computed by the training branch:
`((X - mean) ** 2).sum((0,)) / X.shape[0]`. -/
def bnBatchVarT (X : TMat) : TVec :=
  (TMat.sumAxis0 (TMat.mulE
    (TMat.sub X (TVec.broadcastRow (bnBatchMeanT X) X.val.length))
    (TMat.sub X (TVec.broadcastRow (bnBatchMeanT X) X.val.length)))).divNat X.val.length

theorem bn1dTrainStep_eq (st : BN1d) (X : TMat) :
    bn1dTrainStep st X =
      (TVec.broadcastRow (bnBatchMeanT X) X.val.length,
       TVec.broadcastRow (bnBatchVarT X) X.val.length,
       { st with
          running_mean := TVec.add (TVec.scale (1 - st.momentum) st.running_mean)
            (TVec.scale st.momentum (bnBatchMeanT X).detach),
          running_var := TVec.add (TVec.scale (1 - st.momentum) st.running_var)
            (TVec.scale st.momentum (bnBatchVarT X).detach) }) := rfl

theorem bnBatchMeanT_len {X : TMat} {B d : Nat} (hX : isMat X.val B d) (hB : 0 < B) :
    (bnBatchMeanT X).val.length = d := by
  simp [bnBatchMeanT, TVec.divNat, TMat.sumAxis0, sumCols_length, colsOf_eq hX hB]

theorem bnBatchMeanT_getD {X : TMat} {B d : Nat} (hX : isMat X.val B d) (hB : 0 < B)
    {c : Nat} (hc : c < d) :
    (bnBatchMeanT X).val.getD c 0 = batchMean X.val c := by
  simp only [bnBatchMeanT, TVec.divNat, TMat.sumAxis0]
  rw [getD_map_of_lt _ _ c 0 0 (by rw [sumCols_length, colsOf_eq hX hB]; exact hc),
    sumCols_getD hX hB hc]
  simp only [batchMean, hX.1]

theorem bnBatchVarT_len {X : TMat} {B d : Nat} (hX : isMat X.val B d) (hB : 0 < B) :
    (bnBatchVarT X).val.length = d := by
  have hm : isMat (rowBroadcast (bnBatchMeanT X).val X.val.length) B d := by
    rw [hX.1]
    exact isMat_rowBroadcast (bnBatchMeanT_len hX hB)
  have hdiff : isMat (matZip (· - ·) X.val (rowBroadcast (bnBatchMeanT X).val X.val.length)) B d :=
    isMat_matZip _ hX hm
  have hP : isMat (matZip (· * ·)
      (matZip (· - ·) X.val (rowBroadcast (bnBatchMeanT X).val X.val.length))
      (matZip (· - ·) X.val (rowBroadcast (bnBatchMeanT X).val X.val.length))) B d :=
    isMat_matZip _ hdiff hdiff
  simp [bnBatchVarT, TVec.divNat, TMat.sumAxis0, TMat.mulE, TMat.sub, TMat.zip,
    TVec.broadcastRow, sumCols_length, colsOf_eq hP hB]

theorem bnBatchVarT_getD {X : TMat} {B d : Nat} (hX : isMat X.val B d) (hB : 0 < B)
    {c : Nat} (hc : c < d) :
    (bnBatchVarT X).val.getD c 0 = batchVar X.val c := by
  have hm : isMat (rowBroadcast (bnBatchMeanT X).val X.val.length) B d := by
    rw [hX.1]
    exact isMat_rowBroadcast (bnBatchMeanT_len hX hB)
  have hdiff : isMat (matZip (· - ·) X.val (rowBroadcast (bnBatchMeanT X).val X.val.length)) B d :=
    isMat_matZip _ hX hm
  have hP : isMat (matZip (· * ·)
      (matZip (· - ·) X.val (rowBroadcast (bnBatchMeanT X).val X.val.length))
      (matZip (· - ·) X.val (rowBroadcast (bnBatchMeanT X).val X.val.length))) B d :=
    isMat_matZip _ hdiff hdiff
  simp only [bnBatchVarT, TVec.divNat, TMat.sumAxis0, TMat.mulE, TMat.sub, TMat.zip,
    TVec.broadcastRow]
  rw [getD_map_of_lt _ _ c 0 0 (by rw [sumCols_length, colsOf_eq hP hB]; exact hc),
    sumCols_getD hP hB hc]
  have hsum : ∀ i ∈ Finset.range B,
      ((matZip (· * ·)
        (matZip (· - ·) X.val (rowBroadcast (bnBatchMeanT X).val X.val.length))
        (matZip (· - ·) X.val (rowBroadcast (bnBatchMeanT X).val X.val.length))).getD i []).getD c 0
      = ((X.val.getD i []).getD c 0 - batchMean X.val c) ^ 2 := by
    intro i hi
    have hiB : i < B := Finset.mem_range.mp hi
    rw [matZip_getD _ hdiff hdiff hiB hc, matZip_getD _ hX hm hiB hc]
    have : ((rowBroadcast (bnBatchMeanT X).val X.val.length).getD i []).getD c 0
        = batchMean X.val c := by
      rw [rowBroadcast_getD (by rw [hX.1]; exact hiB), bnBatchMeanT_getD hX hB hc]
    rw [this]
    ring
  rw [Finset.sum_congr rfl hsum]
  simp only [batchVar, hX.1]

theorem TVec_smul_add_getD (p q : ℝ) (a b : TVec) {c : Nat}
    (h1 : c < a.val.length) (h2 : c < b.val.length) :
    (TVec.add (TVec.scale p a) (TVec.scale q b)).val.getD c 0
      = p * a.val.getD c 0 + q * b.val.getD c 0 := by
  simp only [TVec.add, TVec.scale]
  rw [getD_zip_of_lt _ _ _ c 0 0 0 (by simpa using h1) (by simpa using h2),
    getD_map_of_lt _ _ c 0 0 h1, getD_map_of_lt _ _ c 0 0 h2]

theorem TVec_smul_add_detach_tracked (p q : ℝ) (a b : TVec) :
    (TVec.add (TVec.scale p a) (TVec.scale q (TVec.detach b))).tracked = a.tracked := by
  simp [TVec.add, TVec.scale, TVec.detach]

theorem bn1dEpilogue_getD (st : BN1d) (X : TMat) (mv vv : TVec) {B d : Nat}
    (hX : isMat X.val B d) (hm : mv.val.length = d) (hv : vv.val.length = d)
    (hw : st.weight.val.length = d) (hb : st.bias.val.length = d)
    {i c : Nat} (hi : i < B) (hc : c < d) :
    ((bn1dEpilogue st X (TVec.broadcastRow mv X.val.length)
        (TVec.broadcastRow vv X.val.length)).val.getD i []).getD c 0
      = st.weight.val.getD c 0 *
          (((X.val.getD i []).getD c 0 - mv.val.getD c 0) /
            Real.sqrt (vv.val.getD c 0 + st.eps)) + st.bias.val.getD c 0 := by
  have hmv : isMat (rowBroadcast mv.val X.val.length) B d := by
    rw [hX.1]; exact isMat_rowBroadcast hm
  have hvv : isMat (rowBroadcast vv.val X.val.length) B d := by
    rw [hX.1]; exact isMat_rowBroadcast hv
  have hwB : isMat (rowBroadcast st.weight.val X.val.length) B d := by
    rw [hX.1]; exact isMat_rowBroadcast hw
  have hbB : isMat (rowBroadcast st.bias.val X.val.length) B d := by
    rw [hX.1]; exact isMat_rowBroadcast hb
  have hsub : isMat (matZip (· - ·) X.val (rowBroadcast mv.val X.val.length)) B d :=
    isMat_matZip _ hX hmv
  have hden : isMat (matMap Real.sqrt (matMap (fun x => x + st.eps)
      (rowBroadcast vv.val X.val.length))) B d :=
    isMat_matMap _ (isMat_matMap _ hvv)
  have hnorm : isMat (matZip (· / ·)
      (matZip (· - ·) X.val (rowBroadcast mv.val X.val.length))
      (matMap Real.sqrt (matMap (fun x => x + st.eps)
        (rowBroadcast vv.val X.val.length)))) B d :=
    isMat_matZip _ hsub hden
  have hmul : isMat (matZip (· * ·) (rowBroadcast st.weight.val X.val.length)
      (matZip (· / ·)
        (matZip (· - ·) X.val (rowBroadcast mv.val X.val.length))
        (matMap Real.sqrt (matMap (fun x => x + st.eps)
          (rowBroadcast vv.val X.val.length))))) B d :=
    isMat_matZip _ hwB hnorm
  have hiL : i < X.val.length := by rw [hX.1]; exact hi
  simp only [bn1dEpilogue, TMat.add, TMat.mulE, TMat.divE, TMat.sub, TMat.zip,
    TMat.powHalf, TMat.addScalar, TMat.map, TVec.broadcastRow]
  rw [matZip_getD _ hmul hbB hi hc, matZip_getD _ hwB hnorm hi hc,
    matZip_getD _ hsub hden hi hc, matZip_getD _ hX hmv hi hc,
    matMap_getD _ (isMat_matMap _ hvv) hi hc, matMap_getD _ hvv hi hc]
  simp only [rowBroadcast_getD hiL]

theorem bn1dForward_eq_train (st : BN1d) (X : TMat) (htrain : st.training = true)
    (hcond : st.dim = colsOf X.val) :
    bn1dForward st X =
      some (bn1dEpilogue st X (bn1dTrainStep st X).1 (bn1dTrainStep st X).2.1,
        (bn1dTrainStep st X).2.2) := by
  simp [bn1dForward, hcond, htrain]

theorem bn1dForward_eq_eval (st : BN1d) (X : TMat) (hmode : st.training = false)
    (hcond : st.dim = colsOf X.val) :
    bn1dForward st X =
      some (bn1dEpilogue st X (bn1dEvalStep st X).1 (bn1dEvalStep st X).2.1, st) := by
  simp [bn1dForward, hcond, hmode]
  rfl

/-- Repeated forward passes (`Module.__call__`) of the same layer on a list of
inputs, threading the layer state; a pass whose assertion fails leaves the
state unchanged (the exception aborts before any attribute is rebound). -/
def bn1dEvalPasses (st : BN1d) (Xs : List TMat) : BN1d :=
  Xs.foldl (fun s X =>
    match bn1dForward s X with
    | some r => r.2
    | none => s) st

/-- C1: in training mode BatchNorm1d normalizes with the per-channel batch
mean and the biased (divide by `B`) batch variance, and replaces each running
statistic by `(1-momentum)*running + momentum*batch_stat` where the batch
statistic is detached, so an untracked running statistic stays untracked. -/
theorem bn1d_train_forward (st : BN1d) (X : TMat) (B d : Nat)
    (htrain : st.training = true) (hdim : st.dim = d)
    (hX : isMat X.val B d) (hB : 0 < B)
    (hrm : st.running_mean.val.length = d) (hrv : st.running_var.val.length = d)
    (hw : st.weight.val.length = d) (hb : st.bias.val.length = d) :
    ∃ Y st2, bn1dForward st X = some (Y, st2) ∧
      (∀ c, c < d → st2.running_mean.val.getD c 0 =
        (1 - st.momentum) * st.running_mean.val.getD c 0 + st.momentum * batchMean X.val c) ∧
      (∀ c, c < d → st2.running_var.val.getD c 0 =
        (1 - st.momentum) * st.running_var.val.getD c 0 + st.momentum * batchVar X.val c) ∧
      st2.running_mean.tracked = st.running_mean.tracked ∧
      st2.running_var.tracked = st.running_var.tracked ∧
      (∀ i c, i < B → c < d → (Y.val.getD i []).getD c 0 =
        st.weight.val.getD c 0 *
          (((X.val.getD i []).getD c 0 - batchMean X.val c) /
            Real.sqrt (batchVar X.val c + st.eps)) + st.bias.val.getD c 0) := by
  have hcond : st.dim = colsOf X.val := by rw [colsOf_eq hX hB]; exact hdim
  refine ⟨_, _, bn1dForward_eq_train st X htrain hcond, ?_, ?_, ?_, ?_, ?_⟩
  · intro c hc
    have hstep : (bn1dTrainStep st X).2.2.running_mean
        = TVec.add (TVec.scale (1 - st.momentum) st.running_mean)
            (TVec.scale st.momentum (bnBatchMeanT X).detach) := rfl
    rw [hstep, TVec_smul_add_getD _ _ _ _ (by rw [hrm]; exact hc)
      (by show c < (bnBatchMeanT X).val.length; rw [bnBatchMeanT_len hX hB]; exact hc)]
    have hdet : (TVec.detach (bnBatchMeanT X)).val = (bnBatchMeanT X).val := rfl
    rw [hdet, bnBatchMeanT_getD hX hB hc]
  · intro c hc
    have hstep : (bn1dTrainStep st X).2.2.running_var
        = TVec.add (TVec.scale (1 - st.momentum) st.running_var)
            (TVec.scale st.momentum (bnBatchVarT X).detach) := rfl
    rw [hstep, TVec_smul_add_getD _ _ _ _ (by rw [hrv]; exact hc)
      (by show c < (bnBatchVarT X).val.length; rw [bnBatchVarT_len hX hB]; exact hc)]
    have hdet : (TVec.detach (bnBatchVarT X)).val = (bnBatchVarT X).val := rfl
    rw [hdet, bnBatchVarT_getD hX hB hc]
  · exact TVec_smul_add_detach_tracked _ _ _ _
  · exact TVec_smul_add_detach_tracked _ _ _ _
  · intro i c hi hc
    have hY : bn1dEpilogue st X (bn1dTrainStep st X).1 (bn1dTrainStep st X).2.1
        = bn1dEpilogue st X (TVec.broadcastRow (bnBatchMeanT X) X.val.length)
            (TVec.broadcastRow (bnBatchVarT X) X.val.length) := rfl
    rw [hY, bn1dEpilogue_getD st X (bnBatchMeanT X) (bnBatchVarT X) hX
      (bnBatchMeanT_len hX hB) (bnBatchVarT_len hX hB) hw hb hi hc,
      bnBatchMeanT_getD hX hB hc, bnBatchVarT_getD hX hB hc]

/-- C1 witness: a concrete 2x1 training-mode forward pass. -/
theorem bn1d_train_forward_witness :
    ∃ Y st2,
      bn1dForward
        ⟨1, 1, 1, ⟨[1], true⟩, ⟨[0], true⟩, ⟨[0], false⟩, ⟨[1], false⟩, true⟩
        ⟨[[(2 : ℝ)], [4]], true⟩ = some (Y, st2) ∧
      st2.running_mean.tracked = false := by
  obtain ⟨Y, st2, hfwd, _, _, htr, _, _⟩ :=
    bn1d_train_forward
      ⟨1, 1, 1, ⟨[1], true⟩, ⟨[0], true⟩, ⟨[0], false⟩, ⟨[1], false⟩, true⟩
      ⟨[[(2 : ℝ)], [4]], true⟩ 2 1 rfl rfl
      (by
        refine ⟨rfl, ?_⟩
        intro r hr
        simp only [List.mem_cons, List.not_mem_nil, or_false] at hr
        rcases hr with rfl | rfl <;> rfl)
      (by decide) rfl rfl rfl rfl
  exact ⟨Y, st2, hfwd, htr⟩

/-- C2: in evaluation mode BatchNorm1d normalizes with the stored running
statistics and never mutates the layer state, over any number of forward
passes; in training mode two forward passes on the same input from the same
state produce identical running-statistic updates (the forward computation is
deterministic given `momentum` and `eps`). -/
theorem bn1d_eval_frame (st : BN1d) (hmode : st.training = false) :
    (∀ X Y st2, bn1dForward st X = some (Y, st2) → st2 = st) ∧
    (∀ Xs, bn1dEvalPasses st Xs = st) ∧
    (∀ X B d, isMat X.val B d → 0 < B → st.dim = d →
      st.running_mean.val.length = d → st.running_var.val.length = d →
      st.weight.val.length = d → st.bias.val.length = d →
      ∃ Y, bn1dForward st X = some (Y, st) ∧
        ∀ i c, i < B → c < d → (Y.val.getD i []).getD c 0 =
          st.weight.val.getD c 0 *
            (((X.val.getD i []).getD c 0 - st.running_mean.val.getD c 0) /
              Real.sqrt (st.running_var.val.getD c 0 + st.eps)) + st.bias.val.getD c 0) ∧
    (∀ st3 X Y1 s1 Y2 s2, st3.training = true →
      bn1dForward st3 X = some (Y1, s1) → bn1dForward st3 X = some (Y2, s2) →
      s1.running_mean = s2.running_mean ∧ s1.running_var = s2.running_var) := by
  have hkeep : ∀ X Y st2, bn1dForward st X = some (Y, st2) → st2 = st := by
    intro X Y st2 h
    simp only [bn1dForward, hmode, Bool.false_eq_true, if_false] at h
    split at h
    · have h2 := h
      simp only [Option.some.injEq, Prod.mk.injEq] at h2
      exact h2.2.symm
    · exact absurd h (by simp)
  refine ⟨hkeep, ?_, ?_, ?_⟩
  · intro Xs
    induction Xs with
    | nil => rfl
    | cons X rest ih =>
        have hstep : (match bn1dForward st X with
            | some r => r.2
            | none => st) = st := by
          cases h : bn1dForward st X with
          | none => rfl
          | some r => exact hkeep X r.1 r.2 (by rw [h])
        simp only [bn1dEvalPasses, List.foldl_cons] at ih ⊢
        rw [hstep]
        exact ih
  · intro X B d hX hB hdim hrm hrv hw hb
    have hcond : st.dim = colsOf X.val := by rw [colsOf_eq hX hB]; exact hdim
    refine ⟨_, bn1dForward_eq_eval st X hmode hcond, ?_⟩
    intro i c hi hc
    have hY : bn1dEpilogue st X (bn1dEvalStep st X).1 (bn1dEvalStep st X).2.1
        = bn1dEpilogue st X (TVec.broadcastRow st.running_mean X.val.length)
            (TVec.broadcastRow st.running_var X.val.length) := rfl
    rw [hY, bn1dEpilogue_getD st X st.running_mean st.running_var hX hrm hrv hw hb hi hc]
  · intro st3 X Y1 s1 Y2 s2 _ h1 h2
    rw [h1, Option.some.injEq, Prod.mk.injEq] at h2
    exact ⟨by rw [h2.2], by rw [h2.2]⟩

/-- C2 witness: a concrete evaluation-mode layer is left unchanged by a pass
and normalizes with the running statistics. -/
theorem bn1d_eval_frame_witness :
    bn1dEvalPasses
      ⟨1, 1, 1, ⟨[1], true⟩, ⟨[0], true⟩, ⟨[0], false⟩, ⟨[1], false⟩, false⟩
      [⟨[[(2 : ℝ)], [4]], true⟩] =
      ⟨1, 1, 1, ⟨[1], true⟩, ⟨[0], true⟩, ⟨[0], false⟩, ⟨[1], false⟩, false⟩ ∧
    ∃ Y, bn1dForward
      ⟨1, 1, 1, ⟨[1], true⟩, ⟨[0], true⟩, ⟨[0], false⟩, ⟨[1], false⟩, false⟩
      ⟨[[(2 : ℝ)], [4]], true⟩ =
      some (Y, ⟨1, 1, 1, ⟨[1], true⟩, ⟨[0], true⟩, ⟨[0], false⟩, ⟨[1], false⟩, false⟩) := by
  have h := bn1d_eval_frame
    ⟨1, 1, 1, ⟨[1], true⟩, ⟨[0], true⟩, ⟨[0], false⟩, ⟨[1], false⟩, false⟩ rfl
  refine ⟨h.2.1 _, ?_⟩
  obtain ⟨Y, hY, _⟩ := h.2.2.1 ⟨[[(2 : ℝ)], [4]], true⟩ 2 1
    (by
      refine ⟨rfl, ?_⟩
      intro r hr
      simp only [List.mem_cons, List.not_mem_nil, or_false] at hr
      rcases hr with rfl | rfl <;> rfl)
    (by decide) rfl rfl rfl rfl rfl
  exact ⟨Y, hY⟩

/-! ## BatchNorm2d (`nn.py` lines 232-241)

4-D tensors are nested lists (`x[n][c][h][w]`).  The engine primitives used by
`BatchNorm2d.forward` are modelled as follows: `transpose((i, i+1))` swaps two
adjacent axes (a matrix transpose at the corresponding nesting level, realized
with an index-based transpose over the rows); `reshape` reinterprets the
row-major flattening of the data in the new shape (flatten to 1-D, regroup). -/

abbrev T3 := List Mat
abbrev T4 := List T3

/-- Split a list into consecutive groups of `k` (row-major regrouping). -/
def chunkL {α : Type} (k : Nat) (l : List α) : List (List α) :=
  match k, l with
  | 0, _ => []
  | _ + 1, [] => []
  | kk + 1, a :: t => (a :: t).take (kk + 1) :: chunkL (kk + 1) ((a :: t).drop (kk + 1))
termination_by l.length
decreasing_by
  simp only [List.length_drop, List.length_cons]
  omega

/-- Matrix transpose of a list of rows (the engine's swap of two adjacent
axes, at one nesting level); `d` is the padding default, never read on
well-shaped input. -/
def transposeM {α : Type} (d : α) (x : List (List α)) : List (List α) :=
  (List.range (x.headD []).length).map (fun c => x.map (fun r => r.getD c d))

/-- `transpose((1, 2))` on a 4-D tensor. -/
def transpose12 (x : T4) : T4 := x.map (transposeM ([] : List ℝ))

/-- `transpose((2, 3))` on a 4-D tensor. -/
def transpose23 (x : T4) : T4 := x.map (fun cube => cube.map (transposeM (0 : ℝ)))

/-- The row-major flattening of a 4-D tensor. -/
def flat4 (x : T4) : List ℝ := x.flatten.flatten.flatten

/-- `reshape((-, C))` of a 4-D tensor into a 2-D tensor with `C` columns. -/
def reshape4to2 (C : Nat) (x : T4) : Mat := chunkL C (flat4 x)

/-- `reshape((N, H, W, C))` of a 2-D tensor into a 4-D tensor. -/
def reshape2to4 (H W C : Nat) (rows : Mat) : T4 :=
  chunkL H (chunkL W (chunkL C rows.flatten))

/-- `x` is a well-shaped `(a, b, c)` tensor. -/
def isT3 (x : T3) (a b c : Nat) : Prop :=
  x.length = a ∧ ∀ m ∈ x, isMat m b c

/-- `x` is a well-shaped `(a, b, c, e)` tensor. -/
def isT4 (x : T4) (a b c e : Nat) : Prop :=
  x.length = a ∧ ∀ t ∈ x, isT3 t b c e

/-- `BatchNorm2d.forward`, translated from nn.py: read `s = x.shape`, permute
`nchw -> nhcw -> nhwc` by two adjacent-axis transposes, reshape to
`(s0*s2*s3, s1)`, run the inherited `BatchNorm1d.forward`, reshape back to
`(s0, s2, s3, s1)` and transpose back.  The gradient-tracking flag of the 4-D
input is threaded through the 2-D view. -/
def bn2dForward (st : BN1d) (x : T4) (tracked : Bool) : Option (T4 × BN1d) :=
  let s1 := (x.headD []).length
  let s2 := ((x.headD []).headD []).length
  let s3 := (((x.headD []).headD []).headD []).length
  let xm : TMat := ⟨reshape4to2 s1 (transpose23 (transpose12 x)), tracked⟩
  match bn1dForward st xm with
  | some (y, st2) => some (transpose12 (transpose23 (reshape2to4 s2 s3 s1 y.val)), st2)
  | none => none

/-- Specification-side direct permutation of a channel-first `(N, C, H, W)`
tensor to channel-last `(N, H, W, C)` layout, built by indexing. -/
def specPermuteToNHWC (x : T4) : T4 :=
  let N := x.length
  let C := (x.headD []).length
  let H := ((x.headD []).headD []).length
  let W := (((x.headD []).headD []).headD []).length
  (List.range N).map (fun n => (List.range H).map (fun h => (List.range W).map (fun w =>
    (List.range C).map (fun c => (((x.getD n []).getD c []).getD h []).getD w 0))))

/-- Specification-side flattening of the leading three axes of an
`(N, H, W, C)` tensor into one batch axis of size `N*H*W`. -/
def specFlattenBatch (x : T4) : Mat := x.flatten.flatten

/-- Specification-side reshape of a `(N*H*W, C)` tensor back to
`(N, H, W, C)`, built by indexing. -/
def specUnflatten (N H W : Nat) (rows : Mat) : T4 :=
  (List.range N).map (fun n => (List.range H).map (fun h => (List.range W).map (fun w =>
    rows.getD (n * (H * W) + h * W + w) [])))

/-- Specification-side direct permutation of a channel-last `(N, H, W, C)`
tensor back to channel-first `(N, C, H, W)` layout, built by indexing. -/
def specPermuteToNCHW (y : T4) : T4 :=
  let N := y.length
  let H := (y.headD []).length
  let W := ((y.headD []).headD []).length
  let C := (((y.headD []).headD []).headD []).length
  (List.range N).map (fun n => (List.range C).map (fun c => (List.range H).map (fun h =>
    (List.range W).map (fun w => (((y.getD n []).getD h []).getD w []).getD c 0))))

/-- Specification-side BatchNorm2d, following the words of the spec: permute
the channel-first input to channel-last layout, flatten all non-channel axes
into one batch axis of size `N*H*W`, apply the inherited BatchNorm1d forward,
reshape back to `(N, H, W, C)`, and permute back to `(N, C, H, W)`. -/
def bn2dSpecForward (st : BN1d) (x : T4) (tracked : Bool) : Option (T4 × BN1d) :=
  let N := x.length
  let H := ((x.headD []).headD []).length
  let W := (((x.headD []).headD []).headD []).length
  let xm : TMat := ⟨specFlattenBatch (specPermuteToNHWC x), tracked⟩
  match bn1dForward st xm with
  | some (y, st2) => some (specPermuteToNCHW (specUnflatten N H W y.val), st2)
  | none => none

/-! ### Lemmas about chunking, flattening and transposition -/

theorem getD_take_of_lt {α : Type} (d : α) (l : List α) (k j : Nat)
    (hj : j < k) (hl : j < l.length) :
    (l.take k).getD j d = l.getD j d := by
  rw [List.getD_eq_getElem _ _ (by simp; omega), List.getD_eq_getElem _ _ hl,
    List.getElem_take]

theorem getD_drop_of_lt {α : Type} (d : α) (l : List α) (k m : Nat)
    (h : k + m < l.length) :
    (l.drop k).getD m d = l.getD (k + m) d := by
  rw [List.getD_eq_getElem _ _ (by simp; omega), List.getD_eq_getElem _ _ h,
    List.getElem_drop]

theorem getD_append_left_of_lt {α : Type} (d : α) (a t : List α) (j : Nat)
    (hj : j < a.length) :
    (a ++ t).getD j d = a.getD j d := by
  rw [List.getD_eq_getElem _ _ (by simp; omega), List.getD_eq_getElem _ _ hj,
    List.getElem_append_left]

theorem getD_append_right_offset {α : Type} (d : α) (a t : List α) (m : Nat)
    (hm : m < t.length) :
    (a ++ t).getD (a.length + m) d = t.getD m d := by
  rw [List.getD_eq_getElem _ _ (by simp; omega), List.getD_eq_getElem _ _ hm,
    List.getElem_append_right (by omega)]
  congr 1
  omega

theorem chunkL_nil {α : Type} (k : Nat) : chunkL k ([] : List α) = [] := by
  cases k with
  | zero => rw [chunkL]
  | succ kk => rw [chunkL]

theorem chunkL_cons_succ {α : Type} (kk : Nat) (a : α) (t : List α) :
    chunkL (kk + 1) (a :: t)
      = (a :: t).take (kk + 1) :: chunkL (kk + 1) ((a :: t).drop (kk + 1)) := by
  rw [chunkL]

theorem chunkL_length {α : Type} {k : Nat} (hk : 0 < k) :
    ∀ (n : Nat) (l : List α), l.length = n * k → (chunkL k l).length = n := by
  intro n
  induction n with
  | zero =>
      intro l hl
      have : l = [] := List.eq_nil_of_length_eq_zero (by simpa using hl)
      subst this
      simp [chunkL_nil]
  | succ m ih =>
      intro l hl
      obtain ⟨kk, rfl⟩ : ∃ kk, k = kk + 1 := ⟨k - 1, by omega⟩
      obtain ⟨a, t, rfl⟩ : ∃ a t, l = a :: t := by
        cases l with
        | nil =>
            exfalso
            have hexp : (m + 1) * (kk + 1) = m * (kk + 1) + (kk + 1) := by ring
            simp only [List.length_nil] at hl
            omega
        | cons a t => exact ⟨a, t, rfl⟩
      rw [chunkL_cons_succ, List.length_cons]
      have hexp : (m + 1) * (kk + 1) = m * (kk + 1) + (kk + 1) := by ring
      simp only [List.length_cons] at hl
      rw [ih _ (by simp only [List.length_drop, List.length_cons]; omega)]

theorem chunkL_row_length {α : Type} {k : Nat} (hk : 0 < k) :
    ∀ (n : Nat) (l : List α), l.length = n * k → ∀ r ∈ chunkL k l, r.length = k := by
  intro n
  induction n with
  | zero =>
      intro l hl r hr
      have : l = [] := List.eq_nil_of_length_eq_zero (by simpa using hl)
      subst this
      rw [chunkL_nil] at hr
      cases hr
  | succ m ih =>
      intro l hl r hr
      obtain ⟨kk, rfl⟩ : ∃ kk, k = kk + 1 := ⟨k - 1, by omega⟩
      have hexp : (m + 1) * (kk + 1) = m * (kk + 1) + (kk + 1) := by ring
      obtain ⟨a, t, rfl⟩ : ∃ a t, l = a :: t := by
        cases l with
        | nil => exfalso; simp only [List.length_nil] at hl; omega
        | cons a t => exact ⟨a, t, rfl⟩
      rw [chunkL_cons_succ] at hr
      simp only [List.length_cons] at hl
      rcases List.mem_cons.mp hr with rfl | hr2
      · simp only [List.length_take, List.length_cons]
        omega
      · exact ih _ (by simp only [List.length_drop, List.length_cons]; omega) _ hr2

theorem chunkL_getD {α : Type} (d : α) {k : Nat} (hk : 0 < k) :
    ∀ (i : Nat) (n : Nat) (l : List α) (j : Nat), l.length = n * k → i < n → j < k →
      ((chunkL k l).getD i []).getD j d = l.getD (i * k + j) d := by
  intro i
  induction i with
  | zero =>
      intro n l j hl hi hj
      obtain ⟨kk, rfl⟩ : ∃ kk, k = kk + 1 := ⟨k - 1, by omega⟩
      have hexp : n * (kk + 1) = (n - 1) * (kk + 1) + (kk + 1) := by
        have : 1 ≤ n := hi
        calc n * (kk + 1) = (n - 1 + 1) * (kk + 1) := by rw [Nat.sub_add_cancel this]
        _ = (n - 1) * (kk + 1) + (kk + 1) := by ring
      obtain ⟨a, t, rfl⟩ : ∃ a t, l = a :: t := by
        cases l with
        | nil => exfalso; simp only [List.length_nil] at hl; omega
        | cons a t => exact ⟨a, t, rfl⟩
      rw [chunkL_cons_succ]
      simp only [List.getD_cons_zero, Nat.zero_mul, Nat.zero_add]
      simp only [List.length_cons] at hl
      exact getD_take_of_lt d _ _ _ hj (by simp only [List.length_cons]; omega)
  | succ i2 ih =>
      intro n l j hl hi hj
      obtain ⟨kk, rfl⟩ : ∃ kk, k = kk + 1 := ⟨k - 1, by omega⟩
      have hexp : n * (kk + 1) = (n - 1) * (kk + 1) + (kk + 1) := by
        have : 1 ≤ n := by omega
        calc n * (kk + 1) = (n - 1 + 1) * (kk + 1) := by rw [Nat.sub_add_cancel this]
        _ = (n - 1) * (kk + 1) + (kk + 1) := by ring
      obtain ⟨a, t, rfl⟩ : ∃ a t, l = a :: t := by
        cases l with
        | nil => exfalso; simp only [List.length_nil] at hl; omega
        | cons a t => exact ⟨a, t, rfl⟩
      rw [chunkL_cons_succ]
      simp only [List.getD_cons_succ]
      simp only [List.length_cons] at hl
      have hlen : ((a :: t).drop (kk + 1)).length = (n - 1) * (kk + 1) := by
        simp only [List.length_drop, List.length_cons]
        omega
      have hmul1 : (i2 + 1) * (kk + 1) ≤ (n - 1) * (kk + 1) :=
        Nat.mul_le_mul_right _ (by omega)
      have hmul2 : (i2 + 1) * (kk + 1) = i2 * (kk + 1) + (kk + 1) := by ring
      rw [ih (n - 1) _ j hlen (by omega) hj,
        getD_drop_of_lt d _ _ _ (by simp only [List.length_cons]; omega)]
      congr 1
      ring

theorem flatten_length_uniform {α : Type} {k : Nat} :
    ∀ (l : List (List α)), (∀ r ∈ l, r.length = k) → l.flatten.length = l.length * k := by
  intro l
  induction l with
  | nil => simp
  | cons a t ih =>
      intro h
      simp only [List.flatten_cons, List.length_append, List.length_cons]
      rw [ih (fun r hr => h r (List.mem_cons_of_mem _ hr)), h a (List.mem_cons_self _ _)]
      ring

theorem flatten_getD {α : Type} (d : α) {k : Nat} :
    ∀ (l : List (List α)) (i j : Nat), (∀ r ∈ l, r.length = k) → i < l.length → j < k →
      l.flatten.getD (i * k + j) d = (l.getD i []).getD j d := by
  intro l
  induction l with
  | nil =>
      intro i j _ hi _
      simp at hi
  | cons a t ih =>
      intro i j h hi hj
      have ha : a.length = k := h a (List.mem_cons_self _ _)
      cases i with
      | zero =>
          simp only [List.flatten_cons, Nat.zero_mul, Nat.zero_add, List.getD_cons_zero]
          exact getD_append_left_of_lt d _ _ _ (by omega)
      | succ i2 =>
          simp only [List.flatten_cons, List.getD_cons_succ]
          have hidx : (i2 + 1) * k + j = a.length + (i2 * k + j) := by rw [ha]; ring
          rw [hidx, getD_append_right_offset d _ _ _ (by
            rw [flatten_length_uniform t (fun r hr => h r (List.mem_cons_of_mem _ hr))]
            have h1 : (i2 + 1) * k ≤ t.length * k :=
              Nat.mul_le_mul_right _ (by simpa using hi)
            have h2 : (i2 + 1) * k = i2 * k + k := by ring
            omega)]
          exact ih i2 j (fun r hr => h r (List.mem_cons_of_mem _ hr)) (by simpa using hi) hj

theorem chunkL_flatten_id {α : Type} {k : Nat} (hk : 0 < k) :
    ∀ (l : List (List α)), (∀ r ∈ l, r.length = k) → chunkL k l.flatten = l := by
  intro l
  induction l with
  | nil =>
      intro _
      simp only [List.flatten_nil]
      exact chunkL_nil k
  | cons a t ih =>
      intro h
      have ha : a.length = k := h a (List.mem_cons_self _ _)
      obtain ⟨kk, rfl⟩ : ∃ kk, k = kk + 1 := ⟨k - 1, by omega⟩
      obtain ⟨y, ys, rfl⟩ : ∃ y ys, a = y :: ys := by
        cases a with
        | nil => simp at ha
        | cons y ys => exact ⟨y, ys, rfl⟩
      simp only [List.flatten_cons, List.cons_append]
      rw [chunkL_cons_succ]
      congr 1
      · rw [show y :: (ys ++ t.flatten) = (y :: ys) ++ t.flatten from rfl,
          show kk + 1 = ((y :: ys) : List α).length from ha.symm, List.take_left]
      · rw [show y :: (ys ++ t.flatten) = (y :: ys) ++ t.flatten from rfl,
          show kk + 1 = ((y :: ys) : List α).length from ha.symm, List.drop_left,
          show ((y :: ys) : List α).length = kk + 1 from ha]
        exact ih (fun r hr => h r (List.mem_cons_of_mem _ hr))

theorem headD_length_of_shape {α : Type} {l : List (List α)} {a b : Nat}
    (hlen : l.length = a) (hrows : ∀ r ∈ l, r.length = b) (ha : 0 < a) :
    (l.headD []).length = b := by
  cases l with
  | nil => simp at hlen; omega
  | cons r t => exact hrows r (List.mem_cons_self _ _)

theorem transposeM_length {α : Type} (d : α) {x : List (List α)} {a b : Nat}
    (hx : x.length = a) (hrows : ∀ r ∈ x, r.length = b) (ha : 0 < a) :
    (transposeM d x).length = b := by
  unfold transposeM
  rw [List.length_map, List.length_range, headD_length_of_shape hx hrows ha]

theorem transposeM_row_length {α : Type} (d : α) {x : List (List α)} {a : Nat}
    (hx : x.length = a) : ∀ r ∈ transposeM d x, r.length = a := by
  intro r hr
  obtain ⟨c, _, rfl⟩ := List.mem_map.mp hr
  simp [hx]

theorem transposeM_getD {α : Type} (d : α) {x : List (List α)} {a b : Nat}
    (hx : x.length = a) (hrows : ∀ r ∈ x, r.length = b) (ha : 0 < a)
    {i j : Nat} (hi : i < a) (hj : j < b) :
    ((transposeM d x).getD j []).getD i d = (x.getD i []).getD j d := by
  simp only [transposeM, headD_length_of_shape hx hrows ha]
  rw [getD_map_range _ [] hj, getD_map_of_lt _ _ i [] d (by rw [hx]; exact hi)]

theorem isT4_getD {x : T4} {a b c e : Nat} (h : isT4 x a b c e) {n : Nat} (hn : n < a) :
    isT3 (x.getD n []) b c e := by
  have hlen : n < x.length := by rw [h.1]; exact hn
  rw [List.getD_eq_getElem _ _ hlen]
  exact h.2 _ (List.getElem_mem hlen)

theorem isT3_getD {x : T3} {a b c : Nat} (h : isT3 x a b c) {n : Nat} (hn : n < a) :
    isMat (x.getD n []) b c := by
  have hlen : n < x.length := by rw [h.1]; exact hn
  rw [List.getD_eq_getElem _ _ hlen]
  exact h.2 _ (List.getElem_mem hlen)

theorem transposeM_isT3 {cube : T3} {C H W : Nat} (h : isT3 cube C H W) (hC : 0 < C) :
    isT3 (transposeM ([] : List ℝ) cube) H C W := by
  refine ⟨transposeM_length _ h.1 (fun r hr => (h.2 r hr).1) hC, ?_⟩
  intro m hm
  simp only [transposeM] at hm
  obtain ⟨c, hc, rfl⟩ := List.mem_map.mp hm
  have hcH : c < H := by
    have := List.mem_range.mp hc
    rwa [headD_length_of_shape h.1 (fun r hr => (h.2 r hr).1) hC] at this
  refine ⟨by simp [h.1], ?_⟩
  intro e he
  obtain ⟨r, hr, rfl⟩ := List.mem_map.mp he
  exact isMat_row_length (h.2 r hr) hcH

theorem transposeM_isMat {m : Mat} {a b : Nat} (h : isMat m a b) (ha : 0 < a) :
    isMat (transposeM (0 : ℝ) m) b a :=
  ⟨transposeM_length _ h.1 h.2 ha, transposeM_row_length _ h.1⟩

theorem transpose12_isT4 {x : T4} {N C H W : Nat} (hx : isT4 x N C H W) (hC : 0 < C) :
    isT4 (transpose12 x) N H C W := by
  refine ⟨by simp [transpose12, hx.1], ?_⟩
  intro t ht
  obtain ⟨cube, hcube, rfl⟩ := List.mem_map.mp ht
  exact transposeM_isT3 (hx.2 _ hcube) hC

theorem transpose23_isT4 {x : T4} {N A B C2 : Nat} (hx : isT4 x N A B C2) (hB : 0 < B) :
    isT4 (transpose23 x) N A C2 B := by
  refine ⟨by simp [transpose23, hx.1], ?_⟩
  intro t ht
  obtain ⟨cube, hcube, rfl⟩ := List.mem_map.mp ht
  have h3 : isT3 cube A B C2 := hx.2 _ hcube
  refine ⟨by simp [h3.1], ?_⟩
  intro m hm
  obtain ⟨m0, hm0, rfl⟩ := List.mem_map.mp hm
  exact transposeM_isMat (h3.2 _ hm0) hB

theorem transpose12_getD {x : T4} {N C H W : Nat} (hx : isT4 x N C H W) (hC : 0 < C)
    {n i j : Nat} (hn : n < N) (hi : i < C) (hj : j < H) :
    (((transpose12 x).getD n []).getD j []).getD i [] = ((x.getD n []).getD i []).getD j [] := by
  have hcube : isT3 (x.getD n []) C H W := isT4_getD hx hn
  rw [transpose12, getD_map_of_lt _ _ n [] [] (by rw [hx.1]; exact hn),
    transposeM_getD ([] : List ℝ) hcube.1 (fun r hr => (hcube.2 r hr).1) hC hi hj]

theorem transpose23_getD {x : T4} {N A B C2 : Nat} (hx : isT4 x N A B C2) (hB : 0 < B)
    {n a i j : Nat} (hn : n < N) (ha : a < A) (hi : i < B) (hj : j < C2) :
    ((((transpose23 x).getD n []).getD a []).getD j []).getD i 0
      = (((x.getD n []).getD a []).getD i []).getD j 0 := by
  have hcube : isT3 (x.getD n []) A B C2 := isT4_getD hx hn
  have hmat : isMat ((x.getD n []).getD a []) B C2 := isT3_getD hcube ha
  rw [transpose23, getD_map_of_lt _ _ n [] [] (by rw [hx.1]; exact hn),
    getD_map_of_lt _ _ a [] [] (by rw [hcube.1]; exact ha),
    transposeM_getD (0 : ℝ) hmat.1 hmat.2 hB hi hj]

theorem idx2_lt {n h N H : Nat} (hn : n < N) (hh : h < H) : n * H + h < N * H := by
  calc n * H + h < n * H + H := by omega
  _ = (n + 1) * H := by ring
  _ ≤ N * H := Nat.mul_le_mul_right H hn

theorem idx3_lt {n h w N H W : Nat} (hn : n < N) (hh : h < H) (hw : w < W) :
    (n * H + h) * W + w < N * H * W := by
  have h1 : n * H + h < N * H := idx2_lt hn hh
  calc (n * H + h) * W + w < (n * H + h) * W + W := by omega
  _ = ((n * H + h) + 1) * W := by ring
  _ ≤ N * H * W := Nat.mul_le_mul_right W h1

theorem exists_idx3 {r N H W : Nat} (hH : 0 < H) (hW : 0 < W) (hr : r < N * H * W) :
    ∃ n h w, n < N ∧ h < H ∧ w < W ∧ r = (n * H + h) * W + w := by
  have hHW : 0 < H * W := Nat.mul_pos hH hW
  refine ⟨r / (H * W), (r / W) % H, r % W, ?_, Nat.mod_lt _ hH, Nat.mod_lt _ hW, ?_⟩
  · rw [Nat.div_lt_iff_lt_mul hHW, ← Nat.mul_assoc]
    exact hr
  · have e1 := Nat.div_add_mod r W
    have e2 := Nat.div_add_mod (r / W) H
    have e3 : r / W / H = r / (H * W) := by
      rw [Nat.div_div_eq_div_mul, Nat.mul_comm]
    rw [← e3]
    calc r = W * (r / W) + r % W := e1.symm
    _ = W * (H * (r / W / H) + r / W % H) + r % W := by rw [e2]
    _ = (r / W / H * H + r / W % H) * W + r % W := by ring

theorem mat_ext {A A2 : Mat} {B d : Nat} (hA : isMat A B d) (hA2 : isMat A2 B d)
    (h : ∀ i c, i < B → c < d → (A.getD i []).getD c 0 = (A2.getD i []).getD c 0) :
    A = A2 := by
  apply List.ext_getElem (by rw [hA.1, hA2.1])
  intro i h1 h2
  apply List.ext_getElem
  · rw [hA.2 _ (List.getElem_mem h1), hA2.2 _ (List.getElem_mem h2)]
  · intro c hc1 hc2
    have hiB : i < B := by rw [← hA.1]; exact h1
    have hcd : c < d := by
      have hlen := hA.2 _ (List.getElem_mem h1)
      rw [hlen] at hc1
      exact hc1
    have heq := h i c hiB hcd
    rw [List.getD_eq_getElem A [] h1, List.getD_eq_getElem A2 [] h2,
      List.getD_eq_getElem _ _ hc1, List.getD_eq_getElem _ _ hc2] at heq
    exact heq

theorem t3_ext {x y : T3} {C H W : Nat} (hx : isT3 x C H W) (hy : isT3 y C H W)
    (h : ∀ c hh w, c < C → hh < H → w < W →
      ((x.getD c []).getD hh []).getD w 0 = ((y.getD c []).getD hh []).getD w 0) :
    x = y := by
  apply List.ext_getElem (by rw [hx.1, hy.1])
  intro c h1 h2
  have hcC : c < C := by rw [← hx.1]; exact h1
  refine mat_ext (hx.2 _ (List.getElem_mem h1)) (hy.2 _ (List.getElem_mem h2)) ?_
  intro i w hi hw
  have heq := h c i w hcC hi hw
  rw [List.getD_eq_getElem x [] h1, List.getD_eq_getElem y [] h2] at heq
  exact heq

theorem t4_ext {x y : T4} {N C H W : Nat} (hx : isT4 x N C H W) (hy : isT4 y N C H W)
    (h : ∀ n c hh w, n < N → c < C → hh < H → w < W →
      (((x.getD n []).getD c []).getD hh []).getD w 0
        = (((y.getD n []).getD c []).getD hh []).getD w 0) : x = y := by
  apply List.ext_getElem (by rw [hx.1, hy.1])
  intro n h1 h2
  have hnN : n < N := by rw [← hx.1]; exact h1
  refine t3_ext (hx.2 _ (List.getElem_mem h1)) (hy.2 _ (List.getElem_mem h2)) ?_
  intro c hh w hc hhh hw
  have heq := h n c hh w hnN hc hhh hw
  rw [List.getD_eq_getElem x [] h1, List.getD_eq_getElem y [] h2] at heq
  exact heq

theorem isT4_flat_facts {y : T4} {N H W C : Nat} (hy : isT4 y N H W C) :
    (∀ t ∈ y.flatten, t.length = W) ∧ (∀ r ∈ y.flatten.flatten, r.length = C) ∧
    y.flatten.length = N * H ∧ y.flatten.flatten.length = N * H * W ∧
    (flat4 y).length = N * H * W * C := by
  have h1 : ∀ t ∈ y, t.length = H := fun t ht => (hy.2 t ht).1
  have h2 : ∀ m ∈ y.flatten, m.length = W := by
    intro m hm
    obtain ⟨t, ht, hmt⟩ := List.mem_flatten.mp hm
    exact ((hy.2 t ht).2 m hmt).1
  have h3 : ∀ r ∈ y.flatten.flatten, r.length = C := by
    intro r hr
    obtain ⟨m, hm, hrm⟩ := List.mem_flatten.mp hr
    obtain ⟨t, ht, hmt⟩ := List.mem_flatten.mp hm
    exact ((hy.2 t ht).2 m hmt).2 r hrm
  have l1 : y.flatten.length = N * H := by rw [flatten_length_uniform y h1, hy.1]
  have l2 : y.flatten.flatten.length = N * H * W := by
    rw [flatten_length_uniform _ h2, l1]
  have l3 : (flat4 y).length = N * H * W * C := by
    rw [flat4, flatten_length_uniform _ h3, l2]
  exact ⟨h2, h3, l1, l2, l3⟩

theorem reshape4to2_isMat {y : T4} {N H W C : Nat} (hy : isT4 y N H W C) (hC : 0 < C) :
    isMat (reshape4to2 C y) (N * H * W) C := by
  obtain ⟨h2, h3, l1, l2, l3⟩ := isT4_flat_facts hy
  exact ⟨chunkL_length hC _ _ l3, chunkL_row_length hC _ _ l3⟩

theorem reshape4to2_getD {y : T4} {N H W C : Nat} (hy : isT4 y N H W C) (hC : 0 < C)
    {n h w c : Nat} (hn : n < N) (hh : h < H) (hw : w < W) (hc : c < C) :
    ((reshape4to2 C y).getD ((n * H + h) * W + w) []).getD c 0
      = (((y.getD n []).getD h []).getD w []).getD c 0 := by
  obtain ⟨h2, h3, l1, l2, l3⟩ := isT4_flat_facts hy
  have hidx : (n * H + h) * W + w < N * H * W := idx3_lt hn hh hw
  rw [reshape4to2, chunkL_getD 0 hC _ _ _ _ l3 hidx hc]
  rw [flat4, flatten_getD 0 _ _ _ h3 (by rw [l2]; exact hidx) hc]
  rw [flatten_getD [] _ _ _ h2 (by rw [l1]; exact idx2_lt hn hh) hw]
  rw [flatten_getD [] _ _ _ (fun t ht => (hy.2 t ht).1) (by rw [hy.1]; exact hn) hh]

theorem isT4_dims {x : T4} {a b c e : Nat} (hx : isT4 x a b c e)
    (ha : 0 < a) (hb : 0 < b) (hc : 0 < c) :
    (x.headD []).length = b ∧ ((x.headD []).headD []).length = c ∧
    (((x.headD []).headD []).headD []).length = e := by
  obtain ⟨t, xs, rfl⟩ : ∃ t xs, x = t :: xs := by
    cases x with
    | nil => exfalso; have := hx.1; simp at this; omega
    | cons t xs => exact ⟨t, xs, rfl⟩
  have h3 : isT3 t b c e := hx.2 t (List.mem_cons_self _ _)
  obtain ⟨m, ts, rfl⟩ : ∃ m ts, t = m :: ts := by
    cases t with
    | nil => exfalso; have := h3.1; simp at this; omega
    | cons m ts => exact ⟨m, ts, rfl⟩
  have hm : isMat m c e := h3.2 m (List.mem_cons_self _ _)
  obtain ⟨r, ms, rfl⟩ : ∃ r ms, m = r :: ms := by
    cases m with
    | nil => exfalso; have := hm.1; simp at this; omega
    | cons r ms => exact ⟨r, ms, rfl⟩
  exact ⟨by simpa using h3.1, by simpa using hm.1,
    by simpa using hm.2 r (List.mem_cons_self _ _)⟩

theorem chunkL_zero {α : Type} (l : List α) : chunkL 0 l = [] := by
  cases l with
  | nil => rw [chunkL]
  | cons a t => rw [chunkL]

theorem chunkL_mem_sub {α : Type} (k : Nat) (l : List α) :
    ∀ r ∈ chunkL k l, ∀ e ∈ r, e ∈ l := by
  have main : ∀ (m : Nat) (l2 : List α), l2.length ≤ m →
      ∀ r ∈ chunkL k l2, ∀ e ∈ r, e ∈ l2 := by
    intro m
    induction m with
    | zero =>
        intro l2 hl r hr e he
        have : l2 = [] := List.eq_nil_of_length_eq_zero (by omega)
        subst this
        rw [chunkL_nil] at hr
        cases hr
    | succ mm ih =>
        intro l2 hl r hr e he
        cases k with
        | zero =>
            rw [chunkL_zero] at hr
            cases hr
        | succ kk =>
            cases l2 with
            | nil => rw [chunkL_nil] at hr; cases hr
            | cons a t =>
                rw [chunkL_cons_succ] at hr
                rcases List.mem_cons.mp hr with rfl | hr2
                · exact List.take_subset _ _ he
                · have hmem := ih ((a :: t).drop (kk + 1))
                    (by simp only [List.length_drop, List.length_cons]
                        simp only [List.length_cons] at hl
                        omega) r hr2 e he
                  exact List.drop_subset _ _ hmem
  exact main l.length l le_rfl

theorem specPermuteToNHWC_isT4 {x : T4} {N C H W : Nat} (hx : isT4 x N C H W)
    (hN : 0 < N) (hC : 0 < C) (hH : 0 < H) :
    isT4 (specPermuteToNHWC x) N H W C := by
  obtain ⟨hd1, hd2, hd3⟩ := isT4_dims hx hN hC hH
  simp only [specPermuteToNHWC, hd1, hd2, hd3, hx.1]
  refine ⟨by simp, ?_⟩
  intro t ht
  obtain ⟨n, hn, rfl⟩ := List.mem_map.mp ht
  refine ⟨by simp, ?_⟩
  intro m hm
  obtain ⟨h2, hh2, rfl⟩ := List.mem_map.mp hm
  refine ⟨by simp, ?_⟩
  intro r hr
  obtain ⟨w, hw2, rfl⟩ := List.mem_map.mp hr
  simp

theorem specPermuteToNHWC_getD {x : T4} {N C H W : Nat} (hx : isT4 x N C H W)
    (hN : 0 < N) (hC : 0 < C) (hH : 0 < H)
    {n c h w : Nat} (hn : n < N) (hc : c < C) (hh : h < H) (hw : w < W) :
    ((((specPermuteToNHWC x).getD n []).getD h []).getD w []).getD c 0
      = (((x.getD n []).getD c []).getD h []).getD w 0 := by
  obtain ⟨hd1, hd2, hd3⟩ := isT4_dims hx hN hC hH
  simp only [specPermuteToNHWC, hd1, hd2, hd3, hx.1]
  rw [getD_map_range _ [] hn, getD_map_range _ [] hh, getD_map_range _ [] hw,
    getD_map_range _ 0 hc]

theorem specFlattenBatch_isMat {z : T4} {N H W C : Nat} (hz : isT4 z N H W C) :
    isMat (specFlattenBatch z) (N * H * W) C := by
  obtain ⟨h2, h3, l1, l2, l3⟩ := isT4_flat_facts hz
  exact ⟨l2, h3⟩

theorem specFlattenBatch_getD {z : T4} {N H W C : Nat} (hz : isT4 z N H W C)
    {n h w : Nat} (hn : n < N) (hh : h < H) (hw : w < W) :
    (specFlattenBatch z).getD ((n * H + h) * W + w) []
      = ((z.getD n []).getD h []).getD w [] := by
  obtain ⟨h2, h3, l1, l2, l3⟩ := isT4_flat_facts hz
  unfold specFlattenBatch
  rw [flatten_getD [] _ _ _ h2 (by rw [l1]; exact idx2_lt hn hh) hw,
    flatten_getD [] _ _ _ (fun t ht => (hz.2 t ht).1) (by rw [hz.1]; exact hn) hh]

theorem pre_eq {x : T4} {N C H W : Nat} (hx : isT4 x N C H W)
    (hN : 0 < N) (hC : 0 < C) (hH : 0 < H) (hW : 0 < W) :
    reshape4to2 C (transpose23 (transpose12 x))
      = specFlattenBatch (specPermuteToNHWC x) := by
  have h12 : isT4 (transpose12 x) N H C W := transpose12_isT4 hx hC
  have h23 : isT4 (transpose23 (transpose12 x)) N H W C := transpose23_isT4 h12 hC
  have hspec : isT4 (specPermuteToNHWC x) N H W C := specPermuteToNHWC_isT4 hx hN hC hH
  apply mat_ext (reshape4to2_isMat h23 hC) (specFlattenBatch_isMat hspec)
  intro r c hr hc
  obtain ⟨n, h, w, hn, hh, hw, rfl⟩ := exists_idx3 hH hW hr
  rw [reshape4to2_getD h23 hC hn hh hw hc,
    transpose23_getD h12 hC hn hh hc hw,
    transpose12_getD hx hC hn hc hh,
    specFlattenBatch_getD hspec hn hh hw,
    specPermuteToNHWC_getD hx hN hC hH hn hc hh hw]

theorem chunk2_isT4 {y : Mat} {N H W C : Nat} (hy : isMat y (N * H * W) C)
    (hH : 0 < H) (hW : 0 < W) :
    isT4 (chunkL H (chunkL W y)) N H W C := by
  have hyW : y.length = (N * H) * W := hy.1
  have hL : (chunkL W y).length = N * H := chunkL_length hW _ _ hyW
  have hLrows : ∀ r ∈ chunkL W y, r.length = W := chunkL_row_length hW _ _ hyW
  refine ⟨chunkL_length hH _ _ (by rw [hL]), ?_⟩
  intro t ht
  refine ⟨chunkL_row_length hH _ _ (by rw [hL]) t ht, ?_⟩
  intro m hm
  have hmL : m ∈ chunkL W y := chunkL_mem_sub _ _ t ht m hm
  refine ⟨hLrows m hmL, ?_⟩
  intro r hr
  exact hy.2 r (chunkL_mem_sub _ _ m hmL r hr)

theorem chunk2_getD {y : Mat} {N H W C : Nat} (hy : isMat y (N * H * W) C)
    (hH : 0 < H) (hW : 0 < W) {n h w : Nat} (hn : n < N) (hh : h < H) (hw : w < W) :
    (((chunkL H (chunkL W y)).getD n []).getD h []).getD w []
      = y.getD ((n * H + h) * W + w) [] := by
  have hyW : y.length = (N * H) * W := hy.1
  have hL : (chunkL W y).length = N * H := chunkL_length hW _ _ hyW
  rw [chunkL_getD ([] : Mat) hH n N (chunkL W y) h hL hn hh,
    chunkL_getD ([] : List ℝ) hW (n * H + h) (N * H) y w hyW (idx2_lt hn hh) hw]

theorem postChunk_getD {y : Mat} {N H W C : Nat} (hy : isMat y (N * H * W) C)
    (hH : 0 < H) (hW : 0 < W)
    {n c h w : Nat} (hn : n < N) (hc : c < C) (hh : h < H) (hw : w < W) :
    ((((transpose12 (transpose23 (chunkL H (chunkL W y)))).getD n []).getD c []).getD h []).getD w 0
      = (y.getD ((n * H + h) * W + w) []).getD c 0 := by
  have hR : isT4 (chunkL H (chunkL W y)) N H W C := chunk2_isT4 hy hH hW
  have h23 : isT4 (transpose23 (chunkL H (chunkL W y))) N H C W := transpose23_isT4 hR hW
  rw [transpose12_getD h23 hH hn hh hc,
    transpose23_getD hR hW hn hh hw hc,
    chunk2_getD hy hH hW hn hh hw]

theorem specUnflatten_isT4 {y : Mat} {N H W C : Nat} (hy : isMat y (N * H * W) C) :
    isT4 (specUnflatten N H W y) N H W C := by
  refine ⟨by simp [specUnflatten], ?_⟩
  intro t ht
  obtain ⟨n, hn, rfl⟩ := List.mem_map.mp ht
  have hnN := List.mem_range.mp hn
  refine ⟨by simp, ?_⟩
  intro m hm
  obtain ⟨h, hh, rfl⟩ := List.mem_map.mp hm
  have hhH := List.mem_range.mp hh
  refine ⟨by simp, ?_⟩
  intro r hr
  obtain ⟨w, hw, rfl⟩ := List.mem_map.mp hr
  have hwW := List.mem_range.mp hw
  have hidx : n * (H * W) + h * W + w < N * H * W := by
    have h1 := idx3_lt hnN hhH hwW
    have h2 : n * (H * W) + h * W + w = (n * H + h) * W + w := by ring
    omega
  exact isMat_row_length hy hidx

theorem specUnflatten_getD (y : Mat) {N H W : Nat}
    {n h w : Nat} (hn : n < N) (hh : h < H) (hw : w < W) :
    (((specUnflatten N H W y).getD n []).getD h []).getD w []
      = y.getD (n * (H * W) + h * W + w) [] := by
  unfold specUnflatten
  rw [getD_map_range _ [] hn, getD_map_range _ [] hh, getD_map_range _ [] hw]

theorem specPermuteToNCHW_isT4 {U : T4} {N H W C : Nat} (hU : isT4 U N H W C)
    (hN : 0 < N) (hH : 0 < H) (hW : 0 < W) :
    isT4 (specPermuteToNCHW U) N C H W := by
  obtain ⟨hd1, hd2, hd3⟩ := isT4_dims hU hN hH hW
  simp only [specPermuteToNCHW, hd1, hd2, hd3, hU.1]
  refine ⟨by simp, ?_⟩
  intro t ht
  obtain ⟨n, hn, rfl⟩ := List.mem_map.mp ht
  refine ⟨by simp, ?_⟩
  intro m hm
  obtain ⟨c, hc, rfl⟩ := List.mem_map.mp hm
  refine ⟨by simp, ?_⟩
  intro r hr
  obtain ⟨h2, hh2, rfl⟩ := List.mem_map.mp hr
  simp

theorem specPermuteToNCHW_getD {U : T4} {N H W C : Nat} (hU : isT4 U N H W C)
    (hN : 0 < N) (hH : 0 < H) (hW : 0 < W)
    {n c h w : Nat} (hn : n < N) (hc : c < C) (hh : h < H) (hw : w < W) :
    ((((specPermuteToNCHW U).getD n []).getD c []).getD h []).getD w 0
      = (((U.getD n []).getD h []).getD w []).getD c 0 := by
  obtain ⟨hd1, hd2, hd3⟩ := isT4_dims hU hN hH hW
  simp only [specPermuteToNCHW, hd1, hd2, hd3, hU.1]
  rw [getD_map_range _ [] hn, getD_map_range _ [] hc, getD_map_range _ [] hh,
    getD_map_range _ 0 hw]

theorem post_eq {y : Mat} {N H W C : Nat} (hy : isMat y (N * H * W) C)
    (hN : 0 < N) (hH : 0 < H) (hW : 0 < W) (hC : 0 < C) :
    transpose12 (transpose23 (reshape2to4 H W C y))
      = specPermuteToNCHW (specUnflatten N H W y) := by
  have hre : reshape2to4 H W C y = chunkL H (chunkL W y) := by
    rw [reshape2to4, chunkL_flatten_id hC y hy.2]
  rw [hre]
  have hR : isT4 (chunkL H (chunkL W y)) N H W C := chunk2_isT4 hy hH hW
  have h23 : isT4 (transpose23 (chunkL H (chunkL W y))) N H C W := transpose23_isT4 hR hW
  have h12 : isT4 (transpose12 (transpose23 (chunkL H (chunkL W y)))) N C H W :=
    transpose12_isT4 h23 hH
  have hspec : isT4 (specPermuteToNCHW (specUnflatten N H W y)) N C H W :=
    specPermuteToNCHW_isT4 (specUnflatten_isT4 hy) hN hH hW
  apply t4_ext h12 hspec
  intro n c h w hn hc hh hw
  rw [postChunk_getD hy hH hW hn hc hh hw,
    specPermuteToNCHW_getD (specUnflatten_isT4 hy) hN hH hW hn hc hh hw,
    specUnflatten_getD y hn hh hw]
  have hidx : n * (H * W) + h * W + w = (n * H + h) * W + w := by ring
  rw [hidx]

theorem bn1dEpilogue_isMat (st : BN1d) (X : TMat) (mv vv : TVec) {B d : Nat}
    (hX : isMat X.val B d) (hm : mv.val.length = d) (hv : vv.val.length = d)
    (hw : st.weight.val.length = d) (hb : st.bias.val.length = d) :
    isMat (bn1dEpilogue st X (TVec.broadcastRow mv X.val.length)
      (TVec.broadcastRow vv X.val.length)).val B d := by
  unfold bn1dEpilogue
  simp only [TMat.add, TMat.mulE, TMat.divE, TMat.sub, TMat.zip, TMat.powHalf,
    TMat.addScalar, TMat.map, TVec.broadcastRow]
  rw [hX.1]
  exact isMat_matZip _
    (isMat_matZip _ (isMat_rowBroadcast hw)
      (isMat_matZip _ (isMat_matZip _ hX (isMat_rowBroadcast hm))
        (isMat_matMap _ (isMat_matMap _ (isMat_rowBroadcast hv)))))
    (isMat_rowBroadcast hb)

theorem bn1dForward_isMat {st : BN1d} {X : TMat} {B d : Nat}
    (hX : isMat X.val B d) (hB : 0 < B)
    (hrm : st.running_mean.val.length = d) (hrv : st.running_var.val.length = d)
    (hw : st.weight.val.length = d) (hb : st.bias.val.length = d) :
    ∀ Y st2, bn1dForward st X = some (Y, st2) → isMat Y.val B d := by
  intro Y st2 h
  cases htr : st.training with
  | true =>
      have hcond : st.dim = colsOf X.val := by
        unfold bn1dForward at h
        split at h
        · assumption
        · exact absurd h (by simp)
      rw [bn1dForward_eq_train st X htr hcond, Option.some.injEq, Prod.mk.injEq] at h
      rw [← h.1,
        show (bn1dTrainStep st X).1 = TVec.broadcastRow (bnBatchMeanT X) X.val.length from rfl,
        show (bn1dTrainStep st X).2.1 = TVec.broadcastRow (bnBatchVarT X) X.val.length from rfl]
      exact bn1dEpilogue_isMat st X (bnBatchMeanT X) (bnBatchVarT X) hX
        (bnBatchMeanT_len hX hB) (bnBatchVarT_len hX hB) hw hb
  | false =>
      have hcond : st.dim = colsOf X.val := by
        unfold bn1dForward at h
        split at h
        · assumption
        · exact absurd h (by simp)
      rw [bn1dForward_eq_eval st X htr hcond, Option.some.injEq, Prod.mk.injEq] at h
      rw [← h.1,
        show (bn1dEvalStep st X).1 = TVec.broadcastRow st.running_mean X.val.length from rfl,
        show (bn1dEvalStep st X).2.1 = TVec.broadcastRow st.running_var X.val.length from rfl]
      exact bn1dEpilogue_isMat st X st.running_mean st.running_var hX hrm hrv hw hb

/-- C6: `BatchNorm2d(x)` on an `(N, C, H, W)` input equals, element for
element (and with the same running-statistics update), the result of
permuting `x` to channel-last layout, flattening all non-channel axes into
one batch axis of size `N*H*W`, applying the inherited BatchNorm1d forward,
reshaping back to `(N, H, W, C)`, and permuting back to `(N, C, H, W)`. -/
theorem bn2d_refines_bn1d (st : BN1d) (x : T4) (tracked : Bool) {N C H W : Nat}
    (hx : isT4 x N C H W) (hN : 0 < N) (hC : 0 < C) (hH : 0 < H) (hW : 0 < W)
    (hrm : st.running_mean.val.length = C) (hrv : st.running_var.val.length = C)
    (hw : st.weight.val.length = C) (hb : st.bias.val.length = C) :
    bn2dForward st x tracked = bn2dSpecForward st x tracked := by
  obtain ⟨hd1, hd2, hd3⟩ := isT4_dims hx hN hC hH
  have hpre2 : reshape4to2 C (transpose23 (transpose12 x))
      = specFlattenBatch (specPermuteToNHWC x) := pre_eq hx hN hC hH hW
  unfold bn2dForward bn2dSpecForward
  simp only [hd1, hd2, hd3, hx.1, hpre2]
  have hin : isMat (specFlattenBatch (specPermuteToNHWC x)) (N * H * W) C :=
    specFlattenBatch_isMat (specPermuteToNHWC_isT4 hx hN hC hH)
  cases hres : bn1dForward st ⟨specFlattenBatch (specPermuteToNHWC x), tracked⟩ with
  | none => rfl
  | some p =>
      obtain ⟨y, st2⟩ := p
      have hBpos : 0 < N * H * W := by positivity
      have hyshape : isMat y.val (N * H * W) C :=
        bn1dForward_isMat (X := ⟨specFlattenBatch (specPermuteToNHWC x), tracked⟩)
          hin hBpos hrm hrv hw hb y st2 hres
      show some (transpose12 (transpose23 (reshape2to4 H W C y.val)), st2)
          = some (specPermuteToNCHW (specUnflatten N H W y.val), st2)
      rw [post_eq hyshape hN hH hW hC]

/-- C6 witness: a concrete `1x1x1x1` input in evaluation mode. -/
theorem bn2d_refines_bn1d_witness :
    bn2dForward ⟨1, 1, 1, ⟨[1], true⟩, ⟨[0], true⟩, ⟨[0], false⟩, ⟨[1], false⟩, false⟩
        [[[[(5 : ℝ)]]]] true
      = bn2dSpecForward ⟨1, 1, 1, ⟨[1], true⟩, ⟨[0], true⟩, ⟨[0], false⟩, ⟨[1], false⟩, false⟩
        [[[[(5 : ℝ)]]]] true :=
  bn2d_refines_bn1d _ _ _
    (by
      refine ⟨rfl, ?_⟩
      intro t ht
      simp only [List.mem_singleton] at ht
      subst ht
      refine ⟨rfl, ?_⟩
      intro m hm
      simp only [List.mem_singleton] at hm
      subst hm
      refine ⟨rfl, ?_⟩
      intro r hr
      simp only [List.mem_singleton] at hr
      subst hr
      exact rfl)
    (by decide) (by decide) (by decide) (by decide) rfl rfl rfl rfl

/-! ## SoftmaxLoss (`nn.py` lines 163-166)

`init.one_hot` and `ops.logsumexp` are engine primitives, modelled by their
documented semantics: one-hot rows of width `n`, and the numerically stable
log-sum-exp reduction, which computes `log (sum (exp row))`. -/

/-- `init.one_hot(n, i)`: one row of width `n` per label. -/
def oneHot (n : Nat) (i : List Nat) : Mat :=
  i.map (fun lbl => (List.range n).map (fun c => if c = lbl then (1 : ℝ) else 0))

/-- `ops.logsumexp(logits, axes=(1,))`: per-row `log (sum (exp row))`. -/
def logsumexpRows (m : Mat) : Vec :=
  m.map (fun r => Real.log ((r.map Real.exp).sum))

/-- `SoftmaxLoss.forward`, translated from nn.py:
`(logsumexp(logits, (1,)) - (logits * one_hot).sum((1,))).sum() / logits.shape[0]`
with `one_hot = init.one_hot(logits.shape[1], y)`. -/
def softmaxLoss (logits : Mat) (y : List Nat) : ℝ :=
  (List.zipWith (fun a b => a - b) (logsumexpRows logits)
      ((matZip (· * ·) logits (oneHot (colsOf logits) y)).map List.sum)).sum
    / (logits.length : ℝ)

theorem sum_eq_sum_getD (l : List ℝ) : l.sum = ∑ i in Finset.range l.length, l.getD i 0 := by
  have h := sum_map_getD l id 0
  simpa using h

theorem logsumexpRows_getD {logits : Mat} {B C : Nat} (hX : isMat logits B C)
    {b : Nat} (hb : b < B) :
    (logsumexpRows logits).getD b 0
      = Real.log (∑ c in Finset.range C, Real.exp ((logits.getD b []).getD c 0)) := by
  unfold logsumexpRows
  rw [getD_map_of_lt _ _ b [] 0 (by rw [hX.1]; exact hb),
    sum_map_getD (logits.getD b []) Real.exp 0, isMat_row_length hX hb]

theorem oneHot_isMat {C : Nat} {y : List Nat} {B : Nat} (hy : y.length = B) :
    isMat (oneHot C y) B C := by
  refine ⟨by simp [oneHot, hy], ?_⟩
  intro r hr
  obtain ⟨lbl, _, rfl⟩ := List.mem_map.mp hr
  simp

theorem rowSelect_getD {logits : Mat} {B C : Nat} (hX : isMat logits B C)
    {y : List Nat} (hy : y.length = B) {b : Nat} (hb : b < B) (hyb : y.getD b 0 < C) :
    ((matZip (· * ·) logits (oneHot C y)).map List.sum).getD b 0
      = (logits.getD b []).getD (y.getD b 0) 0 := by
  have hoh : isMat (oneHot C y) B C := oneHot_isMat hy
  rw [getD_map_of_lt _ _ b [] 0 (by simp [matZip, hX.1, hoh.1]; omega)]
  rw [show (matZip (· * ·) logits (oneHot C y)).getD b []
      = List.zipWith (· * ·) (logits.getD b []) ((oneHot C y).getD b []) from
    getD_zip_of_lt _ _ _ b [] [] [] (by rw [hX.1]; exact hb) (by rw [hoh.1]; exact hb)]
  rw [show (oneHot C y).getD b []
      = (List.range C).map (fun c => if c = y.getD b 0 then (1 : ℝ) else 0) from by
    unfold oneHot
    rw [getD_map_of_lt _ _ b 0 [] (by rw [hy]; exact hb)]]
  rw [sum_eq_sum_getD]
  have hrl : (logits.getD b []).length = C := isMat_row_length hX hb
  rw [List.length_zipWith, hrl, List.length_map, List.length_range, min_self]
  have hterm : ∀ c ∈ Finset.range C,
      (List.zipWith (· * ·) (logits.getD b [])
        ((List.range C).map (fun c2 => if c2 = y.getD b 0 then (1 : ℝ) else 0))).getD c 0
      = if c = y.getD b 0 then (logits.getD b []).getD c 0 else 0 := by
    intro c hc
    have hcC : c < C := Finset.mem_range.mp hc
    rw [getD_zip_of_lt _ _ _ c 0 0 0 (by rw [hrl]; exact hcC) (by simp; exact hcC),
      getD_map_range _ 0 hcC]
    by_cases hce : c = y.getD b 0
    · simp [hce]
    · simp [hce]
  rw [Finset.sum_congr rfl hterm, Finset.sum_ite_eq' (Finset.range C) (y.getD b 0)
    (fun c => (logits.getD b []).getD c 0), if_pos (Finset.mem_range.mpr hyb)]

/-- C8: SoftmaxLoss returns the mean over the batch of
`logsumexp(logits) - logits[true class]`, selecting the true-class logit via
the one-hot product, dividing by the batch size unconditionally; on
row-constant (uniform) logits it equals `log C`. -/
theorem softmaxLoss_correct (logits : Mat) (y : List Nat) (B C : Nat)
    (hX : isMat logits B C) (hB : 0 < B) (hy : y.length = B)
    (hyC : ∀ b, b < B → y.getD b 0 < C) :
    softmaxLoss logits y
      = (∑ b in Finset.range B,
          (Real.log (∑ c in Finset.range C, Real.exp ((logits.getD b []).getD c 0))
            - (logits.getD b []).getD (y.getD b 0) 0)) / (B : ℝ) ∧
    (∀ v : Nat → ℝ, (∀ b c, b < B → c < C → (logits.getD b []).getD c 0 = v b) →
      0 < C → softmaxLoss logits y = Real.log C) := by
  have hcols : colsOf logits = C := colsOf_eq hX hB
  have hlen1 : (logsumexpRows logits).length = B := by simp [logsumexpRows, hX.1]
  have hlen2 : ((matZip (· * ·) logits (oneHot C y)).map List.sum).length = B := by
    simp [matZip, hX.1, (oneHot_isMat hy (C := C)).1]
  have hmain : softmaxLoss logits y
      = (∑ b in Finset.range B,
          (Real.log (∑ c in Finset.range C, Real.exp ((logits.getD b []).getD c 0))
            - (logits.getD b []).getD (y.getD b 0) 0)) / (B : ℝ) := by
    unfold softmaxLoss
    rw [hcols, sum_eq_sum_getD, List.length_zipWith, hlen1, hlen2, min_self, hX.1]
    congr 1
    apply Finset.sum_congr rfl
    intro b hb
    have hbB : b < B := Finset.mem_range.mp hb
    rw [getD_zip_of_lt _ _ _ b 0 0 0 (by rw [hlen1]; exact hbB) (by rw [hlen2]; exact hbB),
      logsumexpRows_getD hX hbB, rowSelect_getD hX hy hbB (hyC b hbB)]
  refine ⟨hmain, ?_⟩
  intro v hv hC
  rw [hmain]
  have hterm : ∀ b ∈ Finset.range B,
      Real.log (∑ c in Finset.range C, Real.exp ((logits.getD b []).getD c 0))
        - (logits.getD b []).getD (y.getD b 0) 0 = Real.log C := by
    intro b hb
    have hbB : b < B := Finset.mem_range.mp hb
    have hsum : (∑ c in Finset.range C, Real.exp ((logits.getD b []).getD c 0))
        = (C : ℝ) * Real.exp (v b) := by
      rw [Finset.sum_congr rfl (fun c hc => by
        rw [hv b c hbB (Finset.mem_range.mp hc)])]
      simp [Finset.sum_const, Finset.card_range, nsmul_eq_mul]
    rw [hsum, hv b (y.getD b 0) hbB (hyC b hbB),
      Real.log_mul (by positivity) (Real.exp_ne_zero _), Real.log_exp]
    ring
  rw [Finset.sum_congr rfl hterm, Finset.sum_const, Finset.card_range, nsmul_eq_mul]
  field_simp

/-- C8 witness: uniform logits over 2 classes give loss `log 2`. -/
theorem softmaxLoss_correct_witness :
    softmaxLoss [[(0 : ℝ), 0]] [0] = Real.log ((2 : Nat) : ℝ) := by
  have h := softmaxLoss_correct [[(0 : ℝ), 0]] [0] 1 2
    (by
      refine ⟨rfl, ?_⟩
      intro r hr
      simp only [List.mem_singleton] at hr
      subst hr
      rfl)
    (by decide) rfl
    (by
      intro b hb
      interval_cases b
      decide)
  exact h.2 (fun _ => 0)
    (by
      intro b c hb hc
      interval_cases b <;> interval_cases c <;> rfl)
    (by decide)

/-! ## LSTMCell (`nn.py` lines 567-690)

Engine primitives modelled by their documented semantics: matrix multiply,
reshape of a `(B, 4h)` tensor to `(B, 4, h)` (row-major regrouping of each
row), and `ops.split(axis=1)`, which yields one `(B, h)` tensor per index of
the split axis.  `Sigmoid.forward` is `(1 + exp(-X)) ** (-1)` from nn.py;
`ops.tanh` is the engine's elementwise hyperbolic tangent. -/

/-- Matrix product (the engine's `@`). -/
def matMulM (A B2 : Mat) : Mat :=
  A.map (fun r => (List.range (colsOf B2)).map (fun j =>
    (List.zipWith (· * ·) r (B2.map (fun br => br.getD j 0))).sum))

/-- The logistic squashing computed by `Sigmoid.forward`. -/
def sigmoidFn (x : ℝ) : ℝ := (1 + Real.exp (-x))⁻¹

/-- An all-zeros `(B, h)` tensor (`init.zeros`). -/
def zeroMat (B h : Nat) : Mat := List.replicate B (List.replicate h 0)

/-- The per-layer state of an `LSTMCell`: `hidden_size`, the two weight
Parameters of shapes `(input_size, 4*hidden_size)` and
`(hidden_size, 4*hidden_size)`, and the optional bias Parameters of length
`4*hidden_size`. -/
structure LSTMCellP where
  hidden_size : Nat
  W_ih : Mat
  W_hh : Mat
  bias_ih : Option Vec
  bias_hh : Option Vec

/-- Add an optional bias Parameter, broadcast across the batch axis; absent
biases contribute nothing (the `if self.bias_ih is not None` guards). -/
def addOptBias (m : Mat) (ob : Option Vec) (B : Nat) : Mat :=
  match ob with
  | some bv => matZip (· + ·) m (rowBroadcast bv B)
  | none => m

/-- The combined gate pre-activation of `LSTMCell.forward`:
`X @ W_ih + h0 @ W_hh` plus each present bias broadcast across the batch
axis; a `(B, 4*hidden_size)` tensor. -/
def lstmInter (p : LSTMCellP) (X h0 : Mat) : Mat :=
  addOptBias (addOptBias (matZip (· + ·) (matMulM X p.W_ih) (matMulM h0 p.W_hh))
    p.bias_ih X.length) p.bias_hh X.length

/-- Gate `q` of `LSTMCell.forward`: reshape the pre-activation to
`(B, 4, hidden_size)` row-major and take slice `q` of axis 1
(`ops.split(axis=1)`); `q` ranges over `i, f, g, o` = `0, 1, 2, 3`. -/
def lstmGate (p : LSTMCellP) (X h0 : Mat) (q : Nat) : Mat :=
  ((lstmInter p X h0).map (chunkL p.hidden_size)).map (fun r3 => r3.getD q [])

/-- `LSTMCell.forward`, translated statement-for-statement from nn.py:
default zero state when `h` is not supplied, combined pre-activation split
into the four gates `i, f, g, o` in that fixed order, logistic on `i`, `f`,
`o` and tanh on `g`, then `c' = f * c0 + i * g` and `h' = o * tanh(c')`. -/
def lstmCellForward (p : LSTMCellP) (X : Mat) (h : Option (Mat × Mat)) : Mat × Mat :=
  let batch_size := X.length
  let h0 := match h with
    | none => zeroMat batch_size p.hidden_size
    | some hc => hc.1
  let c0 := match h with
    | none => zeroMat batch_size p.hidden_size
    | some hc => hc.2
  let gi := matMap sigmoidFn (lstmGate p X h0 0)
  let gf := matMap sigmoidFn (lstmGate p X h0 1)
  let gg := matMap Real.tanh (lstmGate p X h0 2)
  let go := matMap sigmoidFn (lstmGate p X h0 3)
  let c_out := matZip (· + ·) (matZip (· * ·) gf c0) (matZip (· * ·) gi gg)
  let h_out := matZip (· * ·) go (matMap Real.tanh c_out)
  (h_out, c_out)

/-- A bias contribution: the bias entry when the bias Parameter is present,
`0` when absent. -/
def optBias (ob : Option Vec) (k : Nat) : ℝ :=
  match ob with
  | some v => v.getD k 0
  | none => 0

/-- Specification formula for the width-`4h` combined gate pre-activation
`X·W_ih + h0·W_hh + biases` at batch row `b`, column `k`. -/
def lstmPre (K1 K2 : Nat) (Wih Whh : Mat) (bih bhh : Option Vec)
    (X h0 : Mat) (b k : Nat) : ℝ :=
  (∑ t in Finset.range K1, (X.getD b []).getD t 0 * (Wih.getD t []).getD k 0)
    + (∑ t in Finset.range K2, (h0.getD b []).getD t 0 * (Whh.getD t []).getD k 0)
    + optBias bih k + optBias bhh k

theorem matMulM_isMat {A B2 : Mat} {Bn K M : Nat} (hA : isMat A Bn K)
    (hB : isMat B2 K M) (hK : 0 < K) : isMat (matMulM A B2) Bn M := by
  refine ⟨by simp [matMulM, hA.1], ?_⟩
  intro r hr
  obtain ⟨row, hrow, rfl⟩ := List.mem_map.mp hr
  simp [colsOf_eq hB hK]

theorem matMulM_getD {A B2 : Mat} {Bn K M : Nat} (hA : isMat A Bn K)
    (hB : isMat B2 K M) (hK : 0 < K) {b j : Nat} (hb : b < Bn) (hj : j < M) :
    ((matMulM A B2).getD b []).getD j 0
      = ∑ t in Finset.range K, (A.getD b []).getD t 0 * (B2.getD t []).getD j 0 := by
  unfold matMulM
  rw [getD_map_of_lt _ _ b [] [] (by rw [hA.1]; exact hb), colsOf_eq hB hK,
    getD_map_range _ 0 hj, sum_eq_sum_getD, List.length_zipWith,
    isMat_row_length hA hb, List.length_map, hB.1, min_self]
  apply Finset.sum_congr rfl
  intro t ht
  have htK := Finset.mem_range.mp ht
  rw [getD_zip_of_lt _ _ _ t 0 0 0 (by rw [isMat_row_length hA hb]; exact htK)
      (by rw [List.length_map, hB.1]; exact htK),
    getD_map_of_lt _ _ t [] 0 (by rw [hB.1]; exact htK)]

theorem addOptBias_isMat {m : Mat} {B d : Nat} (hm : isMat m B d) {ob : Option Vec}
    (hob : ∀ v, ob = some v → v.length = d) : isMat (addOptBias m ob B) B d := by
  cases hb : ob with
  | none => exact hm
  | some bv => exact isMat_matZip _ hm (isMat_rowBroadcast (hob bv hb))

theorem addOptBias_getD {m : Mat} {B d : Nat} (hm : isMat m B d) {ob : Option Vec}
    (hob : ∀ v, ob = some v → v.length = d) {b k : Nat} (hb : b < B) (hk : k < d) :
    ((addOptBias m ob B).getD b []).getD k 0 = (m.getD b []).getD k 0 + optBias ob k := by
  cases hob2 : ob with
  | none => simp [addOptBias, optBias]
  | some bv =>
      rw [show addOptBias m (some bv) B = matZip (· + ·) m (rowBroadcast bv B) from rfl,
        matZip_getD _ hm (isMat_rowBroadcast (hob bv hob2)) hb hk,
        rowBroadcast_getD hb]
      rfl

theorem lstmInter_isMat {p : LSTMCellP} {X h0 : Mat} {B nin hs : Nat}
    (hX : isMat X B nin) (hWih : isMat p.W_ih nin (4 * hs))
    (hWhh : isMat p.W_hh hs (4 * hs)) (hh0 : isMat h0 B hs)
    (hnin : 0 < nin) (hs0 : 0 < hs)
    (hbih : ∀ v, p.bias_ih = some v → v.length = 4 * hs)
    (hbhh : ∀ v, p.bias_hh = some v → v.length = 4 * hs) :
    isMat (lstmInter p X h0) B (4 * hs) := by
  have h1 : isMat (matZip (· + ·) (matMulM X p.W_ih) (matMulM h0 p.W_hh)) B (4 * hs) :=
    isMat_matZip _ (matMulM_isMat hX hWih hnin) (matMulM_isMat hh0 hWhh hs0)
  unfold lstmInter
  rw [hX.1]
  exact addOptBias_isMat (addOptBias_isMat h1 hbih) hbhh

theorem lstmInter_getD {p : LSTMCellP} {X h0 : Mat} {B nin hs : Nat}
    (hX : isMat X B nin) (hWih : isMat p.W_ih nin (4 * hs))
    (hWhh : isMat p.W_hh hs (4 * hs)) (hh0 : isMat h0 B hs)
    (hnin : 0 < nin) (hs0 : 0 < hs)
    (hbih : ∀ v, p.bias_ih = some v → v.length = 4 * hs)
    (hbhh : ∀ v, p.bias_hh = some v → v.length = 4 * hs)
    {b k : Nat} (hb : b < B) (hk : k < 4 * hs) :
    ((lstmInter p X h0).getD b []).getD k 0
      = lstmPre nin hs p.W_ih p.W_hh p.bias_ih p.bias_hh X h0 b k := by
  have h1 : isMat (matZip (· + ·) (matMulM X p.W_ih) (matMulM h0 p.W_hh)) B (4 * hs) :=
    isMat_matZip _ (matMulM_isMat hX hWih hnin) (matMulM_isMat hh0 hWhh hs0)
  unfold lstmInter
  rw [hX.1,
    addOptBias_getD (addOptBias_isMat h1 hbih) hbhh hb hk,
    addOptBias_getD h1 hbih hb hk,
    matZip_getD _ (matMulM_isMat hX hWih hnin) (matMulM_isMat hh0 hWhh hs0) hb hk,
    matMulM_getD hX hWih hnin hb hk, matMulM_getD hh0 hWhh hs0 hb hk]
  rfl

theorem lstmGate_isMat {p : LSTMCellP} {X h0 : Mat} {B hs : Nat}
    (hI : isMat (lstmInter p X h0) B (4 * hs)) (hhs : p.hidden_size = hs)
    (hs0 : 0 < hs) {q : Nat} (hq : q < 4) :
    isMat (lstmGate p X h0 q) B hs := by
  subst hhs
  unfold lstmGate
  refine ⟨by simp [hI.1], ?_⟩
  intro r hr
  obtain ⟨r3, hr3, rfl⟩ := List.mem_map.mp hr
  obtain ⟨row, hrow, rfl⟩ := List.mem_map.mp hr3
  have hrowlen : row.length = 4 * p.hidden_size := hI.2 row hrow
  have hclen : (chunkL p.hidden_size row).length = 4 :=
    chunkL_length hs0 4 row hrowlen
  have hq2 : q < (chunkL p.hidden_size row).length := by rw [hclen]; exact hq
  rw [List.getD_eq_getElem _ _ hq2]
  exact chunkL_row_length hs0 4 row hrowlen _ (List.getElem_mem hq2)

theorem lstmGate_getD {p : LSTMCellP} {X h0 : Mat} {B hs : Nat}
    (hI : isMat (lstmInter p X h0) B (4 * hs)) (hhs : p.hidden_size = hs)
    (hs0 : 0 < hs) {q b j : Nat} (hq : q < 4) (hb : b < B) (hj : j < hs) :
    ((lstmGate p X h0 q).getD b []).getD j 0
      = ((lstmInter p X h0).getD b []).getD (q * hs + j) 0 := by
  subst hhs
  unfold lstmGate
  rw [getD_map_of_lt _ _ b [] [] (by simp [hI.1]; exact hb),
    getD_map_of_lt _ _ b [] [] (by rw [hI.1]; exact hb),
    chunkL_getD 0 hs0 q 4 _ j (isMat_row_length hI hb) hq hj]

/-- C7: `LSTMCell.forward` computes the width-`4*hidden_size` pre-activation
`X·W_ih + h0·W_hh` plus the present biases broadcast across the batch axis,
splits it into four equal contiguous chunks in the fixed order
`i, f, g, o`, applies the logistic function to `i, f, o` and tanh to `g`,
and returns `(h', c')` with `c' = f*c0 + i*g` and `h' = o*tanh(c')`. -/
theorem lstmCell_correct (p : LSTMCellP) (X h0 c0 : Mat) (B nin hs : Nat)
    (hX : isMat X B nin) (hWih : isMat p.W_ih nin (4 * hs))
    (hWhh : isMat p.W_hh hs (4 * hs)) (hh0 : isMat h0 B hs) (hc0 : isMat c0 B hs)
    (hhs : p.hidden_size = hs) (hnin : 0 < nin) (hs0 : 0 < hs)
    (hbih : ∀ v, p.bias_ih = some v → v.length = 4 * hs)
    (hbhh : ∀ v, p.bias_hh = some v → v.length = 4 * hs) :
    ∀ b j, b < B → j < hs →
      (((lstmCellForward p X (some (h0, c0))).2.getD b []).getD j 0
          = sigmoidFn (lstmPre nin hs p.W_ih p.W_hh p.bias_ih p.bias_hh X h0 b (hs + j))
              * ((c0.getD b []).getD j 0)
            + sigmoidFn (lstmPre nin hs p.W_ih p.W_hh p.bias_ih p.bias_hh X h0 b j)
              * Real.tanh
                  (lstmPre nin hs p.W_ih p.W_hh p.bias_ih p.bias_hh X h0 b (2 * hs + j))) ∧
      (((lstmCellForward p X (some (h0, c0))).1.getD b []).getD j 0
          = sigmoidFn (lstmPre nin hs p.W_ih p.W_hh p.bias_ih p.bias_hh X h0 b (3 * hs + j))
              * Real.tanh (((lstmCellForward p X (some (h0, c0))).2.getD b []).getD j 0)) := by
  intro b j hb hj
  have hI : isMat (lstmInter p X h0) B (4 * hs) :=
    lstmInter_isMat hX hWih hWhh hh0 hnin hs0 hbih hbhh
  have hg0 : isMat (lstmGate p X h0 0) B hs := lstmGate_isMat hI hhs hs0 (by omega)
  have hg1 : isMat (lstmGate p X h0 1) B hs := lstmGate_isMat hI hhs hs0 (by omega)
  have hg2 : isMat (lstmGate p X h0 2) B hs := lstmGate_isMat hI hhs hs0 (by omega)
  have hg3 : isMat (lstmGate p X h0 3) B hs := lstmGate_isMat hI hhs hs0 (by omega)
  have hcdef : (lstmCellForward p X (some (h0, c0))).2
      = matZip (· + ·)
          (matZip (· * ·) (matMap sigmoidFn (lstmGate p X h0 1)) c0)
          (matZip (· * ·) (matMap sigmoidFn (lstmGate p X h0 0))
            (matMap Real.tanh (lstmGate p X h0 2))) := rfl
  have hhdef : (lstmCellForward p X (some (h0, c0))).1
      = matZip (· * ·) (matMap sigmoidFn (lstmGate p X h0 3))
          (matMap Real.tanh ((lstmCellForward p X (some (h0, c0))).2)) := rfl
  have hcmat : isMat (lstmCellForward p X (some (h0, c0))).2 B hs := by
    rw [hcdef]
    exact isMat_matZip _ (isMat_matZip _ (isMat_matMap _ hg1) hc0)
      (isMat_matZip _ (isMat_matMap _ hg0) (isMat_matMap _ hg2))
  have hcval : ((lstmCellForward p X (some (h0, c0))).2.getD b []).getD j 0
      = sigmoidFn (lstmPre nin hs p.W_ih p.W_hh p.bias_ih p.bias_hh X h0 b (hs + j))
          * ((c0.getD b []).getD j 0)
        + sigmoidFn (lstmPre nin hs p.W_ih p.W_hh p.bias_ih p.bias_hh X h0 b j)
          * Real.tanh (lstmPre nin hs p.W_ih p.W_hh p.bias_ih p.bias_hh X h0 b (2 * hs + j)) := by
    rw [hcdef,
      matZip_getD _ (isMat_matZip _ (isMat_matMap _ hg1) hc0)
        (isMat_matZip _ (isMat_matMap _ hg0) (isMat_matMap _ hg2)) hb hj,
      matZip_getD _ (isMat_matMap _ hg1) hc0 hb hj,
      matZip_getD _ (isMat_matMap _ hg0) (isMat_matMap _ hg2) hb hj,
      matMap_getD _ hg1 hb hj, matMap_getD _ hg0 hb hj, matMap_getD _ hg2 hb hj,
      lstmGate_getD hI hhs hs0 (by omega) hb hj,
      lstmGate_getD hI hhs hs0 (by omega) hb hj,
      lstmGate_getD hI hhs hs0 (by omega) hb hj,
      lstmInter_getD hX hWih hWhh hh0 hnin hs0 hbih hbhh hb (by omega),
      lstmInter_getD hX hWih hWhh hh0 hnin hs0 hbih hbhh hb (by omega),
      lstmInter_getD hX hWih hWhh hh0 hnin hs0 hbih hbhh hb (by omega)]
    simp only [one_mul, zero_mul, zero_add]
  refine ⟨hcval, ?_⟩
  rw [hhdef,
    matZip_getD _ (isMat_matMap _ hg3) (isMat_matMap _ hcmat) hb hj,
    matMap_getD _ hg3 hb hj, matMap_getD _ hcmat hb hj,
    lstmGate_getD hI hhs hs0 (by omega) hb hj,
    lstmInter_getD hX hWih hWhh hh0 hnin hs0 hbih hbhh hb (by omega)]

/-- C7 witness: a concrete 1x1 cell with hidden size 1 and biases present. -/
theorem lstmCell_correct_witness :
    ((lstmCellForward
        ⟨1, [[(1 : ℝ), 2, 3, 4]], [[(5 : ℝ), 6, 7, 8]], some [1, 1, 1, 1], some [0, 0, 0, 0]⟩
        [[(1 : ℝ)]] (some ([[(0 : ℝ)]], [[(0 : ℝ)]]))).2.getD 0 []).getD 0 0
      = sigmoidFn (lstmPre 1 1 [[(1 : ℝ), 2, 3, 4]] [[(5 : ℝ), 6, 7, 8]]
            (some [1, 1, 1, 1]) (some [0, 0, 0, 0]) [[(1 : ℝ)]] [[(0 : ℝ)]] 0 (1 + 0))
          * (([[(0 : ℝ)]].getD 0 []).getD 0 0)
        + sigmoidFn (lstmPre 1 1 [[(1 : ℝ), 2, 3, 4]] [[(5 : ℝ), 6, 7, 8]]
            (some [1, 1, 1, 1]) (some [0, 0, 0, 0]) [[(1 : ℝ)]] [[(0 : ℝ)]] 0 0)
          * Real.tanh (lstmPre 1 1 [[(1 : ℝ), 2, 3, 4]] [[(5 : ℝ), 6, 7, 8]]
            (some [1, 1, 1, 1]) (some [0, 0, 0, 0]) [[(1 : ℝ)]] [[(0 : ℝ)]] 0 (2 * 1 + 0)) :=
  (lstmCell_correct
      ⟨1, [[(1 : ℝ), 2, 3, 4]], [[(5 : ℝ), 6, 7, 8]], some [1, 1, 1, 1], some [0, 0, 0, 0]⟩
      [[(1 : ℝ)]] [[(0 : ℝ)]] [[(0 : ℝ)]] 1 1 1
      (by
        refine ⟨rfl, ?_⟩
        intro r hr
        simp only [List.mem_singleton] at hr
        subst hr
        rfl)
      (by
        refine ⟨rfl, ?_⟩
        intro r hr
        simp only [List.mem_singleton] at hr
        subst hr
        rfl)
      (by
        refine ⟨rfl, ?_⟩
        intro r hr
        simp only [List.mem_singleton] at hr
        subst hr
        rfl)
      (by
        refine ⟨rfl, ?_⟩
        intro r hr
        simp only [List.mem_singleton] at hr
        subst hr
        rfl)
      (by
        refine ⟨rfl, ?_⟩
        intro r hr
        simp only [List.mem_singleton] at hr
        subst hr
        rfl)
      rfl (by decide) (by decide)
      (by
        intro v hv
        simp only [Option.some.injEq] at hv
        subst hv
        rfl)
      (by
        intro v hv
        simp only [Option.some.injEq] at hv
        subst hv
        rfl)
      0 0 (by decide) (by decide)).1

/-! ## Conv (`nn.py` lines 304-365), at shape level

The claim is about the padding policy and output spatial sizes, so the layer
is embedded at shape level: shapes are lists of dimensions, the two
`transpose` calls swap shape entries, and the engine convolution primitive is
modelled from the spec (`ops.conv` itself is part of the external engine /
not under src/): channel-last input `(n, h, w, c_in)` with a square kernel
`k`, stride `s` and padding `p` yields `(n, (h+2p-k)/s + 1, (w+2p-k)/s + 1,
out_channels)`. -/

/-- One spatial output dimension of the convolution primitive. -/
def convOutDim (n k p s : Nat) : Nat := (n + 2 * p - k) / s + 1

/-- Swap two entries of a shape (`transpose((i, j))` at shape level). -/
def swapShape (i j : Nat) (sh : List Nat) : List Nat :=
  (sh.set i (sh.getD j 0)).set j (sh.getD i 0)

/-- Modelled from the spec: shape of the engine's `ops.conv` output for a
channel-last input shape, square kernel `k`, stride `s`, padding `p`. -/
def convPrimShape (k s p out_channels : Nat) (sh : List Nat) : Option (List Nat) :=
  match sh with
  | [n, h, w, _] =>
      some [n, convOutDim h k p s, convOutDim w k p s, out_channels]
  | _ => none

/-- `Conv.forward` at shape level, translated from nn.py: assert square
spatial dimensions, `padding = kernel_size // 2`, permute `nchw -> nhwc` by
two transposes, run the engine convolution, permute back. -/
def convForwardShape (out_channels kernel_size stride : Nat) (sh : List Nat) :
    Option (List Nat) :=
  match sh with
  | [n, c, h, w] =>
      if h = w then
        match convPrimShape kernel_size stride (kernel_size / 2) out_channels
            (swapShape 2 3 (swapShape 1 2 [n, c, h, w])) with
        | some convSh => some (swapShape 1 2 (swapShape 2 3 convSh))
        | none => none
      else none
  | _ => none

/-- C9: with "same" padding `kernel_size // 2` and odd kernel size (covering
k = 3, 5, 7), the Conv forward pass maps an `(N, C, H, H)` input to an
`(N, out_channels, ceil(H/s), ceil(H/s))` output for every stride `s > 0`
(covering s = 1, 2, 4); with stride 1 the spatial size is preserved, and
non-square spatial dimensions are rejected by the asserted precondition. -/
theorem conv_same_padding_output (out_channels k s H n c : Nat)
    (hk : k % 2 = 1) (hs : 0 < s) (hH : 0 < H) :
    convForwardShape out_channels k s [n, c, H, H]
      = some [n, out_channels, (H + s - 1) / s, (H + s - 1) / s] ∧
    (s = 1 → convForwardShape out_channels k s [n, c, H, H]
      = some [n, out_channels, H, H]) ∧
    (∀ h w : Nat, h ≠ w → convForwardShape out_channels k s [n, c, h, w] = none) := by
  have hout : convOutDim H k (k / 2) s = (H + s - 1) / s := by
    unfold convOutDim
    have h3 : H + 2 * (k / 2) - k = H - 1 := by omega
    rw [h3]
    have h4 : H + s - 1 = H - 1 + s := by omega
    rw [h4, Nat.add_div_right _ hs]
  have hmain : convForwardShape out_channels k s [n, c, H, H]
      = some [n, out_channels, (H + s - 1) / s, (H + s - 1) / s] := by
    dsimp only [convForwardShape]
    rw [if_pos rfl, show convPrimShape k s (k / 2) out_channels
        (swapShape 2 3 (swapShape 1 2 [n, c, H, H]))
      = some [n, convOutDim H k (k / 2) s, convOutDim H k (k / 2) s, out_channels] from rfl]
    dsimp only
    rw [show swapShape 1 2 (swapShape 2 3
        [n, convOutDim H k (k / 2) s, convOutDim H k (k / 2) s, out_channels])
      = [n, out_channels, convOutDim H k (k / 2) s, convOutDim H k (k / 2) s] from rfl, hout]
  refine ⟨hmain, ?_, ?_⟩
  · intro hs1
    subst hs1
    rw [hmain]
    have : (H + 1 - 1) / 1 = H := by omega
    rw [this]
  · intro h w hne
    dsimp only [convForwardShape]
    rw [if_neg hne]

/-- C9 witness: kernel 3, stride 2 on a 5x5 input gives ceil(5/2) = 3. -/
theorem conv_same_padding_output_witness :
    convForwardShape 8 3 2 [2, 4, 5, 5] = some [2, 8, 3, 3] ∧
    convForwardShape 8 3 1 [2, 4, 5, 5] = some [2, 8, 5, 5] := by
  constructor
  · exact (conv_same_padding_output 8 3 2 5 2 4 (by decide) (by decide) (by decide)).1
  · exact (conv_same_padding_output 8 3 1 5 2 4 (by decide) (by decide) (by decide)).2.1 rfl

/-! ## RNNCell / RNN and LSTM stacks (`nn.py` lines 368-564, 693-792)

The constructors draw each cell's Parameters from the initializer; this is
modelled by a supply `cellAt : Nat → _` giving the parameters of the k-th
constructed cell.  `RNN.__init__` appends the first-layer cell
unconditionally and then runs a `for _ in range(num_layers - 1)` loop
(which, like `List.range (numLayers - 1)`, is empty for `num_layers ≤ 1`).
`X` of shape `(seq_len, bs, input)` is represented after `ops.split(axis=0)`
as a list of matrices, and likewise the layer axis of `h0`. -/

/-- Activation tag of an `RNNCell` (`nonlinearity` is validated at
construction: anything other than `tanh` / `relu` raises). -/
inductive RNNAct where
  | tanh : RNNAct
  | relu : RNNAct

/-- Semantics of the activation module stored on the cell. -/
def actFn : RNNAct → ℝ → ℝ
  | .tanh => Real.tanh
  | .relu => fun x => max x 0

/-- The per-layer state of an `RNNCell`. -/
structure RNNCellP where
  hidden_size : Nat
  W_ih : Mat
  W_hh : Mat
  bias_ih : Option Vec
  bias_hh : Option Vec
  act : RNNAct

/-- `RNNCell.forward`, translated from nn.py: default zero hidden state,
`h_out = X @ W_ih + h @ W_hh` plus each present bias broadcast across the
batch axis, then the activation. -/
def rnnCellForward (p : RNNCellP) (X : Mat) (h : Option Mat) : Mat :=
  let batch_size := X.length
  let h0 := match h with
    | none => zeroMat batch_size p.hidden_size
    | some hm => hm
  matMap (actFn p.act)
    (addOptBias (addOptBias (matZip (· + ·) (matMulM X p.W_ih) (matMulM h0 p.W_hh))
      p.bias_ih batch_size) p.bias_hh batch_size)

/-- The cell list built by `RNN.__init__`: the first-layer cell is appended
unconditionally, then `num_layers - 1` further cells. -/
def rnnCells (cellAt : Nat → RNNCellP) (numLayers : Nat) : List RNNCellP :=
  cellAt 0 :: (List.range (numLayers - 1)).map (fun k => cellAt (k + 1))

/-- The cell list built by `LSTM.__init__`, with the same structure. -/
def lstmCells (cellAt : Nat → LSTMCellP) (numLayers : Nat) : List LSTMCellP :=
  cellAt 0 :: (List.range (numLayers - 1)).map (fun k => cellAt (k + 1))

/-- The inner loop of `RNN.forward`: thread the hidden state across the
sequence positions of one layer, collecting each step's output. -/
def rnnLayerScan (p : RNNCellP) (hPrev : Mat) : List Mat → List Mat
  | [] => []
  | xt :: rest =>
      rnnCellForward p xt (some hPrev) :: rnnLayerScan p (rnnCellForward p xt (some hPrev)) rest

/-- The outer loop of `RNN.forward`: `zip(self.rnn_cells, ops.split(h0, 0))`
(truncating at the shorter list, as `zip` does), feeding each layer's full
output sequence to the next layer and collecting each layer's last hidden
state in order. -/
def rnnLayers : List RNNCellP → List Mat → List Mat → List Mat × List Mat
  | [], _, X => (X, [])
  | _ :: _, [], X => (X, [])
  | p :: cs, h :: hs, X =>
      let seq := rnnLayerScan p h X
      let res := rnnLayers cs hs seq
      (res.1, seq.getLastD [] :: res.2)

/-- `RNN.forward`: when no initial state is supplied, synthesize a zero state
with leading (layer) axis `len(self.rnn_cells)`. -/
def rnnForward (cells : List RNNCellP) (hidden_size : Nat) (X : List Mat)
    (h0 : Option (List Mat)) : List Mat × List Mat :=
  let batch_size := (X.headD []).length
  let h0v := match h0 with
    | none => List.replicate cells.length (zeroMat batch_size hidden_size)
    | some h => h
  rnnLayers cells h0v X

/-- C10: constructing an RNN or LSTM with `num_layers = 0` still creates
exactly one cell (the first-layer cell is appended before the
`num_layers - 1` loop), so the module holds `max(num_layers, 1)` cells, its
forward pass behaves identically to a module constructed with
`num_layers = 1`, and the default initial state it synthesizes has a leading
axis of size 1. -/
theorem rnn_lstm_zero_layers (cellAt : Nat → RNNCellP) (lcellAt : Nat → LSTMCellP)
    (hidden_size : Nat) :
    rnnCells cellAt 0 = rnnCells cellAt 1 ∧
    lstmCells lcellAt 0 = lstmCells lcellAt 1 ∧
    (∀ nl, (rnnCells cellAt nl).length = max nl 1) ∧
    (∀ nl, (lstmCells lcellAt nl).length = max nl 1) ∧
    (∀ X h0, rnnForward (rnnCells cellAt 0) hidden_size X h0
        = rnnForward (rnnCells cellAt 1) hidden_size X h0) ∧
    (∀ X, rnnForward (rnnCells cellAt 0) hidden_size X none
        = rnnLayers (rnnCells cellAt 0)
            [zeroMat ((X.headD []).length) hidden_size] X) := by
  refine ⟨rfl, rfl, ?_, ?_, fun X h0 => rfl, fun X => rfl⟩
  · intro nl
    simp only [rnnCells, List.length_cons, List.length_map, List.length_range]
    omega
  · intro nl
    simp only [lstmCells, List.length_cons, List.length_map, List.length_range]
    omega
